import Mathlib

set_option maxRecDepth 8000

/-!
Verification development for the Synclify track-matching core.

Python strings are modelled as lists of characters (`Str`).  The Python code
normalises every string with `unicodedata.normalize("NFKD", s)` followed by
`encode("ascii", "ignore")`, after which all further processing happens on
pure ASCII text; the embedding models this ASCII fragment (NFKD is the
identity on ASCII and non-ASCII characters are removed by the encode; the
compatibility decomposition of non-ASCII characters to ASCII is not
modelled).  Floating point scores are modelled by exact rationals.
-/

namespace Synclify

abbrev Str := List Char

/-! ## Character classes (ASCII fragment) -/

def lowerAscii (c : Char) : Char :=
  if 'A' ≤ c ∧ c ≤ 'Z' then Char.ofNat (c.toNat + 32) else c

/-- `unicodedata.normalize("NFKD", s).encode("ascii", "ignore").decode().lower()`
restricted to the ASCII fragment. -/
def foldAscii (s : Str) : Str :=
  (s.filter fun c => decide (c.toNat < 128)).map lowerAscii

/-- Python `str.lower` restricted to its ASCII action. -/
def pyLower (s : Str) : Str := s.map lowerAscii

/-- The characters matched by the regex class `\s` and stripped by `str.strip`,
restricted to ASCII: space, tab, newline, vertical tab, form feed, carriage
return and the separators 0x1c-0x1f. -/
def isSpaceChar (c : Char) : Bool :=
  decide (c = ' ') || decide (9 ≤ c.toNat ∧ c.toNat ≤ 13) ||
    decide (28 ≤ c.toNat ∧ c.toNat ≤ 31)

/-- Regex word characters `\w` (ASCII): letters, digits and the underscore. -/
def isWordChar (c : Char) : Bool :=
  decide ('a' ≤ c ∧ c ≤ 'z') || decide ('A' ≤ c ∧ c ≤ 'Z') ||
    decide ('0' ≤ c ∧ c ≤ '9') || decide (c = '_')

/-- The class `[a-z0-9]` (code points 97-122 and 48-57). -/
def isLowerAlnum (c : Char) : Bool :=
  decide (97 ≤ c.toNat ∧ c.toNat ≤ 122) || decide (48 ≤ c.toNat ∧ c.toNat ≤ 57)

def isDigitChar (c : Char) : Bool := decide ('0' ≤ c ∧ c ≤ '9')

/-- Python `str.strip()`. -/
def pyStrip (s : Str) : Str :=
  ((s.dropWhile isSpaceChar).reverse.dropWhile isSpaceChar).reverse

/-- Contiguous-substring test (Python `w in s`). -/
def occursIn (w : Str) : Str → Bool
  | [] => w.isEmpty
  | c :: rest => w.isPrefixOf (c :: rest) || occursIn w rest

/-- `re.sub` with a pattern of shape `[bad]+` and replacement a single space:
every maximal run of characters satisfying `bad` becomes one space.  The
Boolean argument records whether the previous character was inside a run. -/
def runSub (bad : Char → Bool) : Bool → Str → Str
  | _, [] => []
  | inRun, c :: rest =>
    if bad c then
      if inRun then runSub bad true rest else ' ' :: runSub bad true rest
    else c :: runSub bad false rest

/-- Python `s.split()`: maximal runs of non-whitespace characters, empty
pieces discarded.  `cur` accumulates the current word reversed. -/
def splitWordsGo (cur : Str) : Str → List Str
  | [] => if cur = [] then [] else [cur.reverse]
  | c :: rest =>
    if isSpaceChar c then
      if cur = [] then splitWordsGo [] rest
      else cur.reverse :: splitWordsGo [] rest
    else splitWordsGo (c :: cur) rest

def splitWords (s : Str) : List Str := splitWordsGo [] s

/-! ## Word-boundary helpers for the regex stages

A `\b` in front of a word-initial (word-character) position holds exactly when
the preceding character is absent or not a word character; a `\b` after a
word-final position holds exactly when the following character is absent or
not a word character. -/

def boundaryBefore : Option Char → Bool
  | none => true
  | some c => !isWordChar c

def boundaryAfterAt : Str → Bool
  | [] => true
  | c :: _ => !isWordChar c

/-- Try the alternatives of an alternation in pattern order at the current
position: the first word that is a literal prefix of `s` and is followed by a
word boundary matches; a word whose trailing `\b` fails is skipped and the
next alternative is tried, exactly as the backtracking engine does.  Returns
the matched word and the remaining text. -/
def findAlt : List Str → Str → Option (Str × Str)
  | [], _ => none
  | w :: ws, s =>
    if w.isPrefixOf s then
      if boundaryAfterAt (s.drop w.length) then some (w, s.drop w.length)
      else findAlt ws s
    else findAlt ws s

/-! ## Bracket stage of clean_title

Pattern: `[\(\[][^)\]]*(official|video|audio|lyric|lyrics|mv|hd|4k|remaster(ed)?|live|cover)[^)\]]*[\)\]]`.

For this pattern a match starting at an opening bracket always extends to the
first closing bracket after it (the classes `[^)\]]*` cannot cross a closing
bracket and the trailing `[^)\]]*` greedily reaches the first one), and such a
match exists exactly when one of the promotional words occurs, with no `\b`
anchors, inside that span.  `re.sub` then replaces the span with one space and
resumes scanning after it. -/

def promoWords : List Str :=
  [String.toList "official", String.toList "video", String.toList "audio",
   String.toList "lyric", String.toList "lyrics", String.toList "mv",
   String.toList "hd", String.toList "4k", String.toList "remaster",
   String.toList "remastered", String.toList "live", String.toList "cover"]

def isOpenBracket (c : Char) : Bool := decide (c = '(') || decide (c = '[')

def isCloseBracket (c : Char) : Bool := decide (c = ')') || decide (c = ']')

/-- Split at the first closing bracket: the segment strictly before it and the
text strictly after it. -/
def splitAtClose : Str → Option (Str × Str)
  | [] => none
  | c :: rest =>
    if isCloseBracket c then some ([], rest)
    else
      match splitAtClose rest with
      | some (seg, rest2) => some (c :: seg, rest2)
      | none => none

def bracketScan : Nat → Str → Str
  | 0, s => s
  | _ + 1, [] => []
  | fuel + 1, c :: rest =>
    if isOpenBracket c then
      match splitAtClose rest with
      | some (seg, rest2) =>
        if promoWords.any (fun w => occursIn w seg) then ' ' :: bracketScan fuel rest2
        else c :: bracketScan fuel rest
      | none => c :: bracketScan fuel rest
    else c :: bracketScan fuel rest

def bracketSub (s : Str) : Str := bracketScan s.length s

/-! ## Suffix stage and global qualifier stage of clean_title -/

/-- The alternatives of `REMIX_PAT`, in pattern order.  No alternative is a
prefix of another, so at a given position at most one of them matches the
text. -/
def remixWords : List Str :=
  [String.toList "remix", String.toList "radio edit", String.toList "extended",
   String.toList "edit", String.toList "version", String.toList "karaoke",
   String.toList "cover", String.toList "live", String.toList "remastered",
   String.toList "mono", String.toList "stereo"]

/-- Semantics of the trailing `.*$` of the suffix rule (no DOTALL): the match
can be extended to the end of the string when no newline follows, or to just
before a single final newline; any interior newline makes the whole attempt
fail.  Returns the text left in place after the match. -/
def dotStarEnd (s : Str) : Option Str :=
  if s.all fun c => decide (c ≠ '\n') then some []
  else if s.dropLast.all fun c => decide (c ≠ '\n') then some [Char.ofNat 10]
  else none

/-- One attempt of the suffix pattern `\s*[SEP]\s*` + `REMIX_PAT` + `.*$` at the
current position.  `sepRun = true` uses `[-_]+` (utils.py); `sepRun = false`
uses a single-character class (legacy script, where after the ASCII fold only
a plain hyphen can occur).  The `\s*` and separator parts are forced: `\s*`
must consume the whole whitespace run (stopping early leaves whitespace where
a separator is required), the greedy separator part must consume the whole
separator run (stopping early leaves a separator where the alternation
requires a letter), and the second `\s*` likewise.  The leading `\b` of
`REMIX_PAT` compares the last consumed character with the word-initial letter
of the alternative; the underscore is a word character, so a separator run
ending in an underscore with no whitespace after it blocks the match. -/
def suffixMatchAt (sepRun : Bool) (isSep : Char → Bool) (s : Str) : Option Str :=
  let w1 := s.takeWhile isSpaceChar
  let r1 := s.drop w1.length
  match r1 with
  | [] => none
  | c :: _ =>
    if isSep c then
      let sepLen := if sepRun then (r1.takeWhile isSep).length else 1
      let r2 := r1.drop sepLen
      let w2 := r2.takeWhile isSpaceChar
      let r3 := r2.drop w2.length
      let bOK :=
        if w2 = [] then
          match (r1.take sepLen).getLast? with
          | some ch => !isWordChar ch
          | none => false
        else true
      if bOK then
        match findAlt remixWords r3 with
        | some (_, tail) => dotStarEnd tail
        | none => none
      else none
    else none

def suffixScan (sepRun : Bool) (isSep : Char → Bool) : Nat → Str → Str
  | 0, s => s
  | _ + 1, [] => []
  | fuel + 1, c :: rest =>
    match suffixMatchAt sepRun isSep (c :: rest) with
    | some tail => ' ' :: tail
    | none => c :: suffixScan sepRun isSep fuel rest

/-- `re.sub(r"\s*[SEP]\s*" + REMIX_PAT.pattern + r".*$", " ", s)`: the leftmost
match (if any) is replaced by one space; scanning then resumes after the match
end, where the only possibly remaining character is a final newline, on which
the pattern cannot match again. -/
def suffixSub (sepRun : Bool) (isSep : Char → Bool) (s : Str) : Str :=
  suffixScan sepRun isSep s.length s

/-- `REMIX_PAT.sub(" ", s)`: global replacement of every `\b`-delimited
qualifier occurrence by one space, scanning left to right and resuming after
each match end; the previous character is carried for the `\b` tests. -/
def remixScan : Nat → Option Char → Str → Str
  | 0, _, s => s
  | _ + 1, _, [] => []
  | fuel + 1, prev, c :: rest =>
    if boundaryBefore prev then
      match findAlt remixWords (c :: rest) with
      | some (w, tail) => ' ' :: remixScan fuel w.getLast? tail
      | none => c :: remixScan fuel (some c) rest
    else c :: remixScan fuel (some c) rest

def remixSub (s : Str) : Str := remixScan s.length none s

/-! ## clean_title and clean_artists -/

def lexLt : Str → Str → Bool
  | [], [] => false
  | [], _ :: _ => true
  | _ :: _, [] => false
  | a :: as, b :: bs =>
    if a.toNat < b.toNat then true
    else if b.toNat < a.toNat then false
    else lexLt as bs

/-- The Python sort key `lambda x: (-len(x), x)` as a total "comes no later"
test: longer tokens first, ties broken lexicographically ascending. -/
def tokLe (a b : Str) : Bool :=
  if a.length = b.length then !lexLt b a else decide (b.length < a.length)

def insertSorted (le : Str → Str → Bool) (x : Str) : List Str → List Str
  | [] => [x]
  | y :: ys => if le x y then x :: y :: ys else y :: insertSorted le x ys

def sortBy (le : Str → Str → Bool) (l : List Str) : List Str :=
  l.foldr (insertSorted le) []

def joinSpace : List Str → Str
  | [] => []
  | [w] => w
  | w :: ws => w ++ ' ' :: joinSpace ws

/-- The alternatives of `FEAT_PAT`.  An optional trailing dot never changes
matchability at a position: when the character after the bare word is a dot,
the bare word already has its trailing word boundary (the dot is not a word
character), so only the bare words matter for the position of the first
match, which is all `FEAT_PAT.split(...)[0]` depends on. -/
def featWords : List Str :=
  [String.toList "feat", String.toList "ft", String.toList "con",
   String.toList "with"]

def featMatchesAt (s : Str) : Bool :=
  featWords.any fun w => w.isPrefixOf s && boundaryAfterAt (s.drop w.length)

/-- `FEAT_PAT.split(a)[0]`: the part of the string strictly before the first
match of `\b(feat\.?|ft\.?|con|with)\b` (the whole string when none). -/
def featCut : Nat → Option Char → Str → Str
  | 0, _, s => s
  | _ + 1, _, [] => []
  | fuel + 1, prev, c :: rest =>
    if boundaryBefore prev && featMatchesAt (c :: rest) then []
    else c :: featCut fuel (some c) rest

/-- clean_artists from utils.py / legacy_sync.py (the two agree; the dict
handling in utils.py is dead code for string entries).  Per credited name:
ASCII fold, cut at the first featuring marker, replace `[,/&;+]+` runs by a
space, collapse whitespace, strip, split; the distinct accumulated tokens are
then sorted by `(-len(token), token)` and the first two are kept. -/
def clean_artists (artists : List Str) : List Str :=
  let tokens := artists.foldr (fun a acc =>
    let a1 := foldAscii a
    let a2 := featCut a1.length none a1
    let a3 := runSub (fun c => decide (c = ',') || decide (c = '/') ||
      decide (c = '&') || decide (c = ';') || decide (c = '+')) false a2
    let a4 := runSub isSpaceChar false a3
    let a5 := pyStrip a4
    if a5 = [] then acc else splitWords a5 ++ acc) []
  (sortBy tokLe tokens.dedup).take 2

def utilsSeps (c : Char) : Bool :=
  decide (c = '|') || decide (c = '-') || decide (c = '_') || decide (c = '/')

def legacySeps (c : Char) : Bool :=
  decide (c = '|') || decide (c = '-') || decide (c = '_')

def isSuffixSepUtils (c : Char) : Bool := decide (c = '-') || decide (c = '_')

def isSuffixSepLegacy (c : Char) : Bool := decide (c = '-')

namespace Utils

/-- clean_title from utils.py: ASCII fold and lowercase; drop bracketed spans
containing a promotional word; drop a `- qualifier ...` suffix (separator
class `[-_]+`); drop remaining qualifier words; replace `[|\-_/]+` runs by a
space; collapse whitespace; strip. -/
def clean_title (s : Str) : Str :=
  let s1 := foldAscii s
  let s2 := bracketSub s1
  let s3 := suffixSub true isSuffixSepUtils s2
  let s4 := remixSub s3
  let s5 := runSub utilsSeps false s4
  let s6 := runSub isSpaceChar false s5
  pyStrip s6

def key_loose (name : Str) (artists : List Str) : Str :=
  clean_title name ++ ':' :: ':' :: joinSpace (clean_artists artists)

def key_title_only (name : Str) : Str := clean_title name

end Utils

namespace Legacy

/-- clean_title from legacy_sync.py: same pipeline as utils.py except that the
suffix separator class is `[-–—]` (a single character) and the final separator
class is `[|\-–—_]+`; after the ASCII fold the en/em dashes cannot occur, so
these reduce to a single hyphen and to `[|\-_]+`. -/
def clean_title (s : Str) : Str :=
  let s1 := foldAscii s
  let s2 := bracketSub s1
  let s3 := suffixSub false isSuffixSepLegacy s2
  let s4 := remixSub s3
  let s5 := runSub legacySeps false s4
  let s6 := runSub isSpaceChar false s5
  pyStrip s6

def key_loose (name : Str) (artists : List Str) : Str :=
  clean_title name ++ ':' :: ':' :: joinSpace (clean_artists artists)

def key_title_only (name : Str) : Str := clean_title name

end Legacy

/-! ## Tracks, deduplication and reconciliation -/

/-- The fields of the track dicts that the matching core reads. -/
structure Track where
  name : Str
  artists : List Str
deriving DecidableEq

/-- deduplicate_tracks, generic in the two key functions (utils.py and the
legacy script share the algorithm verbatim; they differ only in which
clean_title variant the keys use).  A track whose loose key or title key was
already recorded for a kept track is dropped; otherwise it is kept and both
its keys are recorded. -/
def dedupGo (f g : Track → Str) : List Str → List Str → List Track → List Track
  | _, _, [] => []
  | seen, seenT, t :: rest =>
    if f t ∈ seen ∨ g t ∈ seenT then dedupGo f g seen seenT rest
    else t :: dedupGo f g (f t :: seen) (g t :: seenT) rest

namespace Utils

def trackKeyLoose (t : Track) : Str := key_loose t.name t.artists

def trackKeyTitle (t : Track) : Str := key_title_only t.name

def deduplicate_tracks (l : List Track) : List Track :=
  dedupGo trackKeyLoose trackKeyTitle [] [] l

end Utils

namespace Legacy

def trackKeyLoose (t : Track) : Str := key_loose t.name t.artists

def trackKeyTitle (t : Track) : Str := key_title_only t.name

def deduplicate_tracks (l : List Track) : List Track :=
  dedupGo trackKeyLoose trackKeyTitle [] [] l

/-! Reconciliation, legacy main lines 1092-1101.  The source playlist is
stored in a dict keyed by loose key (later duplicates overwrite the value but
keep the first insertion position); the destination keys form two sets; the
missing list keeps the dict order; the already-matched metric is the
cardinality of the intersection of the dict key view with the destination
loose-key set. -/

/-- Python dict assignment semantics on an insertion-ordered association
list: an existing key keeps its position and gets the new value, a fresh key
is appended. -/
def dictInsert {V : Type} (m : List (Str × V)) (k : Str) (v : V) : List (Str × V) :=
  if m.any fun p => decide (p.1 = k) then
    m.map fun p => if p.1 = k then (k, v) else p
  else m ++ [(k, v)]

def src_map (l : List Track) : List (Str × Track) :=
  l.foldl (fun m t => dictInsert m (trackKeyLoose t) t) []

def dst_keyset (l : List Track) : List Str := l.map trackKeyLoose

def dst_titles (l : List Track) : List Str := l.map trackKeyTitle

/-- The `to_add` loop: a source entry is skipped when its loose key is in the
destination loose-key set or its title key is in the destination title-key
set; otherwise it is appended, in dict order. -/
def to_add (src dst : List Track) : List Track :=
  ((src_map src).filter fun p =>
    !(decide (p.1 ∈ dst_keyset dst) ||
      decide (trackKeyTitle p.2 ∈ dst_titles dst))).map Prod.snd

/-- `already = len(src_map.keys() & dst_keyset)`: dict keys are pairwise
distinct, and the set intersection counts the distinct source loose keys that
occur in the destination loose-key set. -/
def already_matched (src dst : List Track) : Nat :=
  (((src_map src).map Prod.fst).dedup.filter fun k =>
    decide (k ∈ dst_keyset dst)).length

/-- The skip test of the to_add loop as a predicate on a source track (for a
deduplicated source the dict key of an entry is exactly its loose key). -/
def present_in_dst (dst : List Track) (t : Track) : Bool :=
  decide (trackKeyLoose t ∈ dst_keyset dst) ||
    decide (trackKeyTitle t ∈ dst_titles dst)

end Legacy

/-! ## difflib.SequenceMatcher ratio -/

def commonPrefixLen : Str → Str → Nat
  | a :: as, b :: bs => if a = b then commonPrefixLen as bs + 1 else 0
  | _, _ => 0

/-- find_longest_match of difflib over the full ranges with no junk: the
longest common contiguous block, earliest start in the first sequence, then
earliest start in the second.  (The autojunk heuristic of SequenceMatcher
only engages for second sequences of length at least 200 and is not
modelled; the compared strings here are normalized titles.) -/
def bestMatch (a b : Str) : Nat × Nat × Nat :=
  (List.range a.length).foldl (fun best i =>
    (List.range b.length).foldl (fun best j =>
      let k := commonPrefixLen (a.drop i) (b.drop j)
      if best.2.2 < k then (i, j, k) else best) best) (0, 0, 0)

/-- Total size of the matching blocks (get_matching_blocks): recursively take
the longest match and recurse on the parts to its left and to its right; the
processing queue order does not affect the total. -/
def matchTotal : Nat → Str → Str → Nat
  | 0, _, _ => 0
  | fuel + 1, a, b =>
    let m := bestMatch a b
    if m.2.2 = 0 then 0
    else
      matchTotal fuel (a.take m.1) (b.take m.2.1) + m.2.2 +
        matchTotal fuel (a.drop (m.1 + m.2.2)) (b.drop (m.2.1 + m.2.2))

/-- SequenceMatcher(None, a, b).ratio(): 2*M/T, and 1.0 when both strings are
empty.  Floats are modelled by exact rationals. -/
def smRatio (a b : Str) : ℚ :=
  let T := a.length + b.length
  if T = 0 then 1 else (2 * matchTotal (T + 1) a b : ℚ) / T

namespace Manager

/-- _is_similar (manager.py): the similarity ratio of the normalized titles
reaches the threshold, and the artist signatures intersect or either one is
empty.  The exception guards around clean_title / clean_artists are dead code
here since both embedded functions are total; manager.py imports the utils.py
normalizers. -/
def is_similar (candTitle : Str) (candArtists : List Str) (keeper : Track)
    (threshold : ℚ) : Bool :=
  let keeperTitle := Utils.clean_title keeper.name
  let keeperArtists := clean_artists keeper.artists
  let overlap := candArtists.any (fun x => decide (x ∈ keeperArtists)) ||
    decide (keeperArtists = []) || decide (candArtists = [])
  decide (threshold ≤ smRatio candTitle keeperTitle) && overlap

/-- _detect_duplicates: scan in order; a track similar to some kept track
(first match in kept order wins) joins the duplicates and is never compared
again, otherwise it joins the kept list; only duplicates are returned. -/
def detectGo (threshold : ℚ) (kept : List Track) : List Track → List Track
  | [] => []
  | t :: rest =>
    let ct := Utils.clean_title t.name
    let ca := clean_artists t.artists
    match kept.find? (fun k => is_similar ct ca k threshold) with
    | some _ => t :: detectGo threshold kept rest
    | none => detectGo threshold (kept ++ [t]) rest

def detect_duplicates (tracks : List Track) (threshold : ℚ) : List Track :=
  detectGo threshold [] tracks

/-- The kept list at the end of the same scan (not returned by the code;
introduced to state the classification properties). -/
def keptGo (threshold : ℚ) (kept : List Track) : List Track → List Track
  | [] => kept
  | t :: rest =>
    let ct := Utils.clean_title t.name
    let ca := clean_artists t.artists
    match kept.find? (fun k => is_similar ct ca k threshold) with
    | some _ => keptGo threshold kept rest
    | none => keptGo threshold (kept ++ [t]) rest

def kept_tracks (tracks : List Track) (threshold : ℚ) : List Track :=
  keptGo threshold [] tracks

end Manager

/-! ## URL parsing (the urllib.parse fragment used by parse_youtube_video_id) -/

def splitAtFirst (ch : Char) : Str → Option (Str × Str)
  | [] => none
  | c :: rest =>
    if c = ch then some ([], rest)
    else
      match splitAtFirst ch rest with
      | some (a, b) => some (c :: a, b)
      | none => none

def isAsciiAlpha (c : Char) : Bool :=
  decide ('a' ≤ c ∧ c ≤ 'z') || decide ('A' ≤ c ∧ c ≤ 'Z')

def isSchemeChar (c : Char) : Bool :=
  isAsciiAlpha c || isDigitChar c || decide (c = '+') || decide (c = '-') ||
    decide (c = '.')

/-- The (netloc, path, query) triple of urllib.parse.urlparse: strip a valid
scheme, read the netloc after a leading "//" up to the first of '/', '?',
'#', cut a '#' fragment, split the query at the first '?'.  The ';'
path-parameter splitting of urlparse only affects the path of URLs containing
a semicolon and is not modelled. -/
def urlparse3 (url : Str) : Str × Str × Str :=
  let afterScheme :=
    match splitAtFirst ':' url with
    | some (sch, rest) =>
      match sch with
      | [] => url
      | c :: _ => if isAsciiAlpha c && sch.all isSchemeChar then rest else url
    | none => url
  let netlocSplit :=
    if (String.toList "//").isPrefixOf afterScheme then
      let r := afterScheme.drop 2
      let n := r.takeWhile fun c =>
        !(decide (c = '/') || decide (c = '?') || decide (c = '#'))
      (n, r.drop n.length)
    else (([] : Str), afterScheme)
  let noFrag :=
    match splitAtFirst '#' netlocSplit.2 with
    | some (a, _) => a
    | none => netlocSplit.2
  match splitAtFirst '?' noFrag with
  | some (p, q) => (netlocSplit.1, p, q)
  | none => (netlocSplit.1, noFrag, [])

def hexVal (c : Char) : Option Nat :=
  if isDigitChar c then some (c.toNat - 48)
  else if decide ('a' ≤ c ∧ c ≤ 'f') then some (c.toNat - 87)
  else if decide ('A' ≤ c ∧ c ≤ 'F') then some (c.toNat - 55)
  else none

/-- Percent decoding of urllib.parse.unquote restricted to single-byte
escapes (multi-byte UTF-8 escape sequences are not modelled); invalid escapes
stay in place. -/
def percentDecode : Str → Str
  | [] => []
  | '%' :: a :: b :: rest =>
    match hexVal a, hexVal b with
    | some ha, some hb => Char.ofNat (16 * ha + hb) :: percentDecode rest
    | _, _ => '%' :: percentDecode (a :: b :: rest)
  | c :: rest => c :: percentDecode rest

def splitOnChar (ch : Char) : Str → List Str
  | [] => [[]]
  | c :: rest =>
    if c = ch then [] :: splitOnChar ch rest
    else
      match splitOnChar ch rest with
      | g :: gs => (c :: g) :: gs
      | [] => [[c]]

def unquotePlus (s : Str) : Str :=
  percentDecode (s.map fun c => if c = '+' then ' ' else c)

/-- parse_qs with default flags, restricted to the first value of a key:
fields split on '&'; a field without '=' or with an empty value is dropped;
names and values receive '+'-to-space and percent decoding. -/
def parse_qs_get (query : Str) (key : Str) : Option Str :=
  (((splitOnChar '&' query).filterMap fun p =>
    match splitAtFirst '=' p with
    | none => none
    | some (n, v) =>
      if v = [] then none else some (unquotePlus n, unquotePlus v)).find?
        fun pr => decide (pr.1 = key)).map Prod.snd

/-- parse_youtube_video_id (textually identical in utils.py and
legacy_sync.py): youtu.be URLs yield the path with leading slashes stripped;
(music.)youtube.com URLs yield the first "v" query value; anything else is
None. -/
def parse_youtube_video_id (url : Str) : Option Str :=
  let s := pyStrip url
  if s = [] then none
  else
    let parts := urlparse3 s
    if parts.1 = String.toList "youtu.be" then
      let vid := parts.2.1.dropWhile fun c => decide (c = '/')
      if vid = [] then none else some vid
    else if occursIn (String.toList "youtube.com") parts.1 ||
        occursIn (String.toList "music.youtube.com") parts.1 then
      match parse_qs_get parts.2.2 (String.toList "v") with
      | some v => if v = [] then none else some v
      | none => none
    else none

/-! ## Interactive result pickers (stdin modelled as the list of input lines) -/

def natOfDigits (s : Str) : Nat := s.foldl (fun a c => a * 10 + (c.toNat - 48)) 0

/-- input_index (legacy helper): read lines until an all-digit entry in range
(or 0 when allowed); running out of input (EOF) yields none. -/
def input_index_loop (minV maxV : Nat) (allowZero : Bool) :
    List Str → Option (Nat × List Str)
  | [] => none
  | line :: rest =>
    let raw := pyStrip line
    if raw ≠ [] ∧ raw.all isDigitChar then
      let n := natOfDigits raw
      if allowZero ∧ n = 0 then some (0, rest)
      else if minV ≤ n ∧ n ≤ maxV then some (n, rest)
      else input_index_loop minV maxV allowZero rest
    else input_index_loop minV maxV allowZero rest

/-- Python int() on a stripped line: optional sign followed by digits
(underscore digit grouping is not modelled). -/
def pyInt? (s : Str) : Option Int :=
  match s with
  | [] => none
  | '-' :: rest =>
    if rest ≠ [] ∧ rest.all isDigitChar then some (-(natOfDigits rest : Int))
    else none
  | '+' :: rest =>
    if rest ≠ [] ∧ rest.all isDigitChar then some ((natOfDigits rest : Int))
    else none
  | _ => if s.all isDigitChar then some ((natOfDigits s : Int)) else none

namespace Legacy

/-- pick_from_web_results (legacy_sync.py): a single candidate
short-circuits to parsing its URL, with no table and no input consumed; with
two or more candidates a table is shown and an index is read with
input_index (0 skips).  Returns the chosen videoId, the remaining stdin and
whether the table/prompt was shown. -/
def pick_from_web_results (results : List (Str × Str)) (stdin : List Str) :
    Option Str × List Str × Bool :=
  match results with
  | [] => (none, stdin, false)
  | [r] => (parse_youtube_video_id r.1, stdin, false)
  | _ =>
    match input_index_loop 1 (min 5 results.length) true stdin with
    | none => (none, [], true)
    | some (0, rest) => (none, rest, true)
    | some (n, rest) =>
      match results[n - 1]? with
      | some p => (parse_youtube_video_id p.1, rest, true)
      | none => (none, rest, true)

end Legacy

namespace Websearch

/-- pick_from_web_results (websearch.py): no single-candidate shortcut; for
any nonempty candidate list the top five are tabled and one line is read and
parsed with int(); any failure (including EOF) yields None. -/
def pick_from_web_results (results : List (Str × Str)) (stdin : List Str) :
    Option Str × List Str × Bool :=
  match results with
  | [] => (none, stdin, false)
  | _ :: _ =>
    let top := results.take 5
    match stdin with
    | [] => (none, [], true)
    | line :: rest =>
      match pyInt? (pyStrip line) with
      | none => (none, rest, true)
      | some n =>
        if n = 0 then (none, rest, true)
        else if 1 ≤ n ∧ n ≤ (top.length : Int) then
          match top[(n - 1).toNat]? with
          | some p => (parse_youtube_video_id p.1, rest, true)
          | none => (none, rest, true)
        else (none, rest, true)

end Websearch

/-! ## Token sets, Jaccard similarity and web-result scoring -/

namespace Websearch

def replaceScan (pat : Str) : Nat → Str → Str
  | 0, s => s
  | _ + 1, [] => []
  | fuel + 1, c :: rest =>
    if pat ≠ [] ∧ pat.isPrefixOf (c :: rest) then
      ' ' :: replaceScan pat fuel ((c :: rest).drop pat.length)
    else c :: replaceScan pat fuel rest

/-- Python str.replace(pat, " "): leftmost non-overlapping occurrences. -/
def pyReplace (pat : Str) (s : Str) : Str := replaceScan pat s.length s

/-- Python ch.isalnum() on the ASCII range (non-ASCII alphanumeric
characters are not modelled). -/
def isAlnumPy (c : Char) : Bool :=
  decide ('a' ≤ c ∧ c ≤ 'z') || decide ('A' ≤ c ∧ c ≤ 'Z') ||
    decide ('0' ≤ c ∧ c ≤ '9')

def stopWords : List Str :=
  [String.toList "the", String.toList "a", String.toList "an",
   String.toList "feat", String.toList "featuring", String.toList "official",
   String.toList "video", String.toList "audio", String.toList "ft",
   String.toList "con", String.toList "with"]

/-- token_set from websearch.py: lowercase; literal replacement of the
substrings "(official)", "[official]", "video" and "audio" by a space;
replacement of every non-alphanumeric character by a space; split; fixed
stop-word filter.  (No ASCII folding happens in this variant.) -/
def token_set (s : Str) : Finset Str :=
  let t0 := pyLower s
  let t1 := pyReplace (String.toList "(official)") t0
  let t2 := pyReplace (String.toList "[official]") t1
  let t3 := pyReplace (String.toList "video") t2
  let t4 := pyReplace (String.toList "audio") t3
  let t5 := t4.map fun c => if isAlnumPy c then c else ' '
  ((splitWords t5).filter fun w =>
    decide (w ≠ []) && !decide (w ∈ stopWords)).toFinset

/-- jaccard from websearch.py: 0.0 when either set is empty (in particular
for two empty sets), otherwise |a ∩ b| / |a ∪ b| with a last-ditch 0.0 for an
empty union. -/
def jaccard (a b : Finset Str) : ℚ :=
  if a = ∅ ∨ b = ∅ then 0
  else
    let u := (a ∪ b).card
    if u = 0 then 0 else ((a ∩ b).card : ℚ) / u

/-- The per-candidate score of pick_best_web_result: Jaccard of the desired
tokens (title tokens plus artist signature) against the candidate title's
tokens, +0.15 when the nonempty title token set is contained in the
candidate's tokens, -0.08 when the URL is a playlist link. -/
def score_result (track_title : Str) (artists : List Str) (url title : Str) : ℚ :=
  let want := token_set track_title ∪ (clean_artists artists).toFinset
  let got := token_set title
  let base := jaccard want got
  let titleTokens := token_set track_title
  let withBonus :=
    if titleTokens ≠ ∅ ∧ titleTokens ⊆ got then base + 15 / 100 else base
  if occursIn (String.toList "/playlist") url then withBonus - 8 / 100
  else withBonus

def scored_results (results : List (Str × Str)) (track_title : Str)
    (artists : List Str) : List (ℚ × Str × Str) :=
  results.map fun p => (score_result track_title artists p.1 p.2, p.1, p.2)

/-- Python tuple comparison on (score, url, title). -/
def tupleLt (x y : ℚ × Str × Str) : Bool :=
  if x.1 < y.1 then true
  else if y.1 < x.1 then false
  else if lexLt x.2.1 y.2.1 then true
  else if lexLt y.2.1 x.2.1 then false
  else lexLt x.2.2 y.2.2

/-- pick_best_web_result: score every candidate, sort the scored tuples
descending (so the head is the maximum in Python tuple order), accept the
best when its score reaches 0.35 and parse its URL, otherwise None. -/
def pick_best_web_result (results : List (Str × Str)) (track_title : Str)
    (artists : List Str) : Option Str :=
  match scored_results results track_title artists with
  | [] => none
  | x :: xs =>
    let best := xs.foldl (fun acc y => if tupleLt acc y then y else acc) x
    if (35 : ℚ) / 100 ≤ best.1 then parse_youtube_video_id best.2.1 else none

end Websearch

namespace Legacy

def stopWords : List Str :=
  [String.toList "the", String.toList "a", String.toList "an",
   String.toList "official", String.toList "video", String.toList "audio",
   String.toList "lyrics", String.toList "lyric", String.toList "remix",
   String.toList "edit", String.toList "radio", String.toList "version",
   String.toList "feat", String.toList "ft", String.toList "con",
   String.toList "with"]

/-- token_set from legacy_sync.py: ASCII fold and lowercase, replacement of
every `[^a-z0-9 ]+` run by a space, split, fixed stop-word filter. -/
def token_set (s : Str) : Finset Str :=
  let t1 := foldAscii s
  let t2 := runSub (fun c => !(isLowerAlnum c || decide (c = ' '))) false t1
  ((splitWords t2).filter fun w =>
    decide (w ≠ []) && !decide (w ∈ stopWords)).toFinset

end Legacy

/-! ## The quota-aware run state machine of the legacy script

The module-level STATE dict and the PLAN_MODE_ONLY global are modelled as one
record (as the refactored state.py also does); the JSON-backed SearchCache is
modelled by its insertion-ordered dict, persistence (cache.save) being
invisible to the run.  Remote calls and interactive prompts are modelled by
per-item input data. -/

namespace Legacy

structure RunFlags where
  yt_search_disabled : Bool := false
  prompted_after_quota : Bool := false
  continue_manual_after_quota : Bool := false
  continue_web_auto_after_quota : Bool := false
  plan_mode_only : Bool := false
deriving DecidableEq

/-- The three options of the after-quota prompt. -/
inductive QuotaChoice
  | manual
  | webAuto
  | stop
deriving DecidableEq

/-- prompt_after_quota: a second call returns immediately (no prompt shown);
the first call records the user's choice (stop leaves both continuation
flags false). -/
def prompt_after_quota (s : RunFlags) (choice : QuotaChoice) : RunFlags × Bool :=
  if s.prompted_after_quota then (s, false)
  else
    ({ s with
       prompted_after_quota := true
       continue_manual_after_quota := decide (choice = QuotaChoice.manual)
       continue_web_auto_after_quota := decide (choice = QuotaChoice.webAuto) },
     true)

/-- Outcome of the remote search call as seen through retry_call: a result, no
result, or an HttpError that survived the retries, with quota errors
distinguished (retry_call flips yt_search_disabled for those before
re-raising). -/
inductive SearchOutcome
  | found (vid : Str)
  | notFound
  | httpError (quota : Bool)
deriving DecidableEq

/-- yt_search_one wrapped in retry_call: with search disabled it returns None
without issuing any API call; otherwise the call is issued and either yields
an optional videoId or raises, a quota error also setting the disabled flag.
Components: state after the call, normal or raised result, whether an API
search call was issued. -/
def yt_search_one (s : RunFlags) (outcome : SearchOutcome) :
    RunFlags × Except Unit (Option Str) × Bool :=
  if s.yt_search_disabled then (s, Except.ok none, false)
  else
    match outcome with
    | .found v => (s, Except.ok (some v), true)
    | .notFound => (s, Except.ok none, true)
    | .httpError q =>
      (if q then { s with yt_search_disabled := true } else s,
       Except.error (), true)

inductive InsertOutcome
  | ok
  | quota
  | otherError
deriving DecidableEq

structure ItemInput where
  searchOutcome : SearchOutcome
  quotaChoice : QuotaChoice
  webOrManualVid : Option Str
  insertOutcome : InsertOutcome
  switchToPlanning : Bool
deriving DecidableEq

structure ItemTrace where
  startedDisabled : Bool
  searchCallIssued : Bool
  promptShown : Bool
deriving DecidableEq

structure EngineState where
  flags : RunFlags
  cache : List (Str × Str)
  pending_web_adds : List Str
  added_video_ids : List Str
deriving DecidableEq

def cache_get (m : List (Str × Str)) (k : Str) : Option Str :=
  (m.find? fun p => decide (p.1 = k)).map Prod.snd

def sortLex (l : List Str) : List Str := sortBy (fun a b => !lexLt b a) l

/-- cache_key: service, stripped lowercased name, stripped lowercased
space-join of the sorted raw artist list. -/
def cache_key (service name : Str) (artists : List Str) : Str :=
  let a := if artists = [] then [] else joinSpace (sortLex artists)
  service ++ '|' :: pyLower (pyStrip name) ++ '|' :: pyLower (pyStrip a)

/-- Stage 3 of the per-item loop (legacy main, lines 1233-1284), for a
resolved videoId.  In planning mode the id goes to the pending exports (if
new) and is cached; no insert is attempted.  Otherwise add_youtube_videos
skips an id already added this run (no API call) and the id is cached; for a
new id the insert is attempted first and the cache is written only after it
succeeds: a quota failure leaves the cache untouched and either switches to
planning mode, moving the id into the pending exports, or stops the run; any
other HttpError is logged and the item is abandoned uncached.  Components:
new state, run stopped, insert API call attempted. -/
def insert_and_cache (st : EngineState) (ck vid : Str)
    (outcome : InsertOutcome) (switchToPlanning : Bool) :
    EngineState × Bool × Bool :=
  if st.flags.plan_mode_only then
    let fresh := !decide (vid ∈ st.added_video_ids)
    ({ st with
       pending_web_adds :=
         if fresh then st.pending_web_adds ++ [vid] else st.pending_web_adds
       added_video_ids :=
         if fresh then st.added_video_ids ++ [vid] else st.added_video_ids
       cache := dictInsert st.cache ck vid }, false, false)
  else if vid ∈ st.added_video_ids then
    ({ st with cache := dictInsert st.cache ck vid }, false, false)
  else
    match outcome with
    | .ok =>
      ({ st with
         added_video_ids := st.added_video_ids ++ [vid]
         cache := dictInsert st.cache ck vid }, false, true)
    | .quota =>
      if switchToPlanning then
        ({ st with
           flags := { st.flags with plan_mode_only := true }
           pending_web_adds := st.pending_web_adds ++ [vid]
           added_video_ids := st.added_video_ids ++ [vid] }, false, true)
      else (st, true, true)
    | .otherError => (st, false, true)

/-- Stage 1 of the per-item loop: when the cache missed, search is not
disabled and planning mode is off, the API search runs; an HttpError from it
triggers the after-quota prompt, a stop when no continuation was chosen, and
the disabling of further searches otherwise.  Components: flags after the
stage, resolved id so far, API search call issued, prompt shown, run
stopped. -/
def search_stage (flags : RunFlags) (cached : Option Str) (inp : ItemInput) :
    RunFlags × Option Str × Bool × Bool × Bool :=
  if cached = none ∧ flags.yt_search_disabled = false ∧
      flags.plan_mode_only = false then
    match yt_search_one flags inp.searchOutcome with
    | (f, Except.ok r, issued) => (f, r, issued, false, false)
    | (f, Except.error _, issued) =>
      let pr := prompt_after_quota f inp.quotaChoice
      if pr.1.continue_manual_after_quota = false ∧
          pr.1.continue_web_auto_after_quota = false then
        (pr.1, none, issued, pr.2, true)
      else ({ pr.1 with yt_search_disabled := true }, none, issued, pr.2, false)
  else (flags, cached, false, false, false)

/-- One iteration of the resolution loop for a YouTube destination (legacy
main, lines 1157-1286).  Stage 1 (cache, then API search until quota) is
modelled in full; stage 2 (web auto / manual fallback) changes no run state
and is abstracted by the optional id it produces; stage 3 is
insert_and_cache.  Components: new state, per-item trace, run stopped. -/
def process_item_youtube (st : EngineState) (t : Track) (inp : ItemInput) :
    EngineState × ItemTrace × Bool :=
  let ck := cache_key (String.toList "youtube") t.name t.artists
  let cached := cache_get st.cache ck
  let startedDisabled := st.flags.yt_search_disabled
  match search_stage st.flags cached inp with
  | (flags1, vid1, searchIssued, promptShown, stopped) =>
    let tr : ItemTrace :=
      { startedDisabled := startedDisabled
        searchCallIssued := searchIssued
        promptShown := promptShown }
    if stopped then ({ st with flags := flags1 }, tr, true)
    else
      let vid2 := match vid1 with
        | some v => some v
        | none => inp.webOrManualVid
      match vid2 with
      | none => ({ st with flags := flags1 }, tr, false)
      | some v =>
        match insert_and_cache { st with flags := flags1 } ck v
            inp.insertOutcome inp.switchToPlanning with
        | (st3, stoppedIns, _) => (st3, tr, stoppedIns)

/-- The resolution loop over the missing items: one at a time, stopping early
when an item stops the run. -/
def run_items : EngineState → List (Track × ItemInput) → EngineState × List ItemTrace
  | st, [] => (st, [])
  | st, (t, inp) :: rest =>
    match process_item_youtube st t inp with
    | (st2, tr, true) => (st2, [tr])
    | (st2, tr, false) =>
      match run_items st2 rest with
      | (st3, trs) => (st3, tr :: trs)

/-- Outcome of sp_search_one (Spotify errors are caught inside, yielding
None). -/
inductive SpSearchOutcome
  | found (uri : Str)
  | notFound
deriving DecidableEq

/-- One iteration of the resolution loop for a Spotify destination (legacy
main, lines 1136-1155): cache lookup; on a search hit the uri is cached
immediately (the destination write happens only after the loop, in batches);
the manual-paste fallback (modelled by its parsed result) is not cached.
Components: new cache, collected uris. -/
def process_item_spotify (cache : List (Str × Str)) (uris : List Str)
    (t : Track) (outcome : SpSearchOutcome) (manualParsed : Option Str) :
    List (Str × Str) × List Str :=
  let ck := cache_key (String.toList "spotify") t.name t.artists
  match cache_get cache ck with
  | some uri => (cache, uris ++ [uri])
  | none =>
    match outcome with
    | .found uri => (dictInsert cache ck uri, uris ++ [uri])
    | .notFound =>
      match manualParsed with
      | some uri => (cache, uris ++ [uri])
      | none => (cache, uris)

end Legacy

/-! ## The spec-side token extractor for comparison with token_set

From the specification's wording: a word is in the result exactly when it is
a maximal alphanumeric token of the folded text and is not a stop word. -/

def alnumTokensGo (cur : Str) : Str → List Str
  | [] => if cur = [] then [] else [cur.reverse]
  | c :: rest =>
    if isLowerAlnum c then alnumTokensGo (c :: cur) rest
    else if cur = [] then alnumTokensGo [] rest
    else cur.reverse :: alnumTokensGo [] rest

/-- The maximal `[a-z0-9]` runs of a string, in order. -/
def alnumTokens (t : Str) : List Str := alnumTokensGo [] t

/-! ## Concrete data used by the scenario conjuncts and the witnesses -/

def demoAlpha : Track := ⟨String.toList "Alpha", [String.toList "X"]⟩

def demoAX : Track := ⟨String.toList "a", [String.toList "x"]⟩

def demoAY : Track := ⟨String.toList "a", [String.toList "y"]⟩

/-- A fresh engine state (both globals and STATE fields at their initial
values, empty cache, nothing pending or added). -/
def freshState : Legacy.EngineState := ⟨{}, [], [], []⟩

/-- An item whose search resolves and whose destination insert then fails
with a quota error, the user accepting the planning-mode switch. -/
def quotaItem : Legacy.ItemInput :=
  ⟨Legacy.SearchOutcome.found (String.toList "v1"), Legacy.QuotaChoice.webAuto,
   none, Legacy.InsertOutcome.quota, true⟩

/-- An item processed entirely normally (search succeeds, insert succeeds). -/
def plainItem : Legacy.ItemInput :=
  ⟨Legacy.SearchOutcome.found (String.toList "v2"), Legacy.QuotaChoice.webAuto,
   none, Legacy.InsertOutcome.ok, false⟩

/-! # Theorems -/

/-! ## Properties of the deduplication scan -/

theorem dedupGo_idem (f g : Track → Str) (l : List Track) : ∀ seen seenT,
    dedupGo f g seen seenT (dedupGo f g seen seenT l) =
      dedupGo f g seen seenT l := by
  induction l with
  | nil => intro seen seenT; rfl
  | cons t rest ih =>
    intro seen seenT
    by_cases h : f t ∈ seen ∨ g t ∈ seenT
    · simp only [dedupGo, if_pos h]
      exact ih seen seenT
    · simp only [dedupGo, if_neg h]
      exact congrArg (List.cons t) (ih (f t :: seen) (g t :: seenT))

theorem dedupGo_sublist (f g : Track → Str) (l : List Track) : ∀ seen seenT,
    (dedupGo f g seen seenT l).Sublist l := by
  induction l with
  | nil => intro _ _; exact List.Sublist.refl _
  | cons t rest ih =>
    intro seen seenT
    by_cases h : f t ∈ seen ∨ g t ∈ seenT
    · simp only [dedupGo, if_pos h]
      exact (ih seen seenT).cons t
    · simp only [dedupGo, if_neg h]
      exact (ih (f t :: seen) (g t :: seenT)).cons₂ t

theorem dedupGo_mem (f g : Track → Str) (l : List Track) : ∀ seen seenT x,
    x ∈ dedupGo f g seen seenT l → x ∈ l ∧ f x ∉ seen ∧ g x ∉ seenT := by
  induction l with
  | nil => intro seen seenT x hx; simp [dedupGo] at hx
  | cons t rest ih =>
    intro seen seenT x hx
    by_cases h : f t ∈ seen ∨ g t ∈ seenT
    · simp only [dedupGo, if_pos h] at hx
      obtain ⟨h1, h2, h3⟩ := ih seen seenT x hx
      exact ⟨List.mem_cons_of_mem _ h1, h2, h3⟩
    · simp only [dedupGo, if_neg h] at hx
      push_neg at h
      rcases List.mem_cons.mp hx with rfl | hx'
      · exact ⟨List.mem_cons_self _ _, h.1, h.2⟩
      · obtain ⟨h1, h2, h3⟩ := ih (f t :: seen) (g t :: seenT) x hx'
        refine ⟨List.mem_cons_of_mem _ h1, ?_, ?_⟩
        · exact fun hc => h2 (List.mem_cons_of_mem _ hc)
        · exact fun hc => h3 (List.mem_cons_of_mem _ hc)

theorem dedupGo_pairwise (f g : Track → Str) (l : List Track) : ∀ seen seenT,
    (dedupGo f g seen seenT l).Pairwise fun u v => f u ≠ f v ∧ g u ≠ g v := by
  induction l with
  | nil => intro _ _; simp [dedupGo]
  | cons t rest ih =>
    intro seen seenT
    by_cases h : f t ∈ seen ∨ g t ∈ seenT
    · simp only [dedupGo, if_pos h]
      exact ih seen seenT
    · simp only [dedupGo, if_neg h]
      refine List.Pairwise.cons ?_ (ih (f t :: seen) (g t :: seenT))
      intro v hv
      obtain ⟨_, h2, h3⟩ := dedupGo_mem f g rest (f t :: seen) (g t :: seenT) v hv
      constructor
      · intro he
        exact h2 (by rw [← he]; exact List.mem_cons_self _ _)
      · intro he
        exact h3 (by rw [← he]; exact List.mem_cons_self _ _)

theorem dedupGo_cover (f g : Track → Str) (l : List Track) : ∀ seen seenT x,
    x ∈ l → (f x ∈ seen ∨ g x ∈ seenT) ∨
      ∃ u ∈ dedupGo f g seen seenT l, f u = f x ∨ g u = g x := by
  induction l with
  | nil => intro _ _ x hx; cases hx
  | cons t rest ih =>
    intro seen seenT x hx
    by_cases h : f t ∈ seen ∨ g t ∈ seenT
    · rcases List.mem_cons.mp hx with rfl | hx'
      · exact Or.inl h
      · rcases ih seen seenT x hx' with hl | ⟨u, hu, he⟩
        · exact Or.inl hl
        · refine Or.inr ⟨u, ?_, he⟩
          simp only [dedupGo, if_pos h]
          exact hu
    · rcases List.mem_cons.mp hx with rfl | hx'
      · refine Or.inr ⟨x, ?_, Or.inl rfl⟩
        simp only [dedupGo, if_neg h]
        exact List.mem_cons_self _ _
      · rcases ih (f t :: seen) (g t :: seenT) x hx' with hl | ⟨u, hu, he⟩
        · rcases hl with hf | hg
          · rcases List.mem_cons.mp hf with he2 | hf'
            · refine Or.inr ⟨t, ?_, Or.inl he2.symm⟩
              simp only [dedupGo, if_neg h]
              exact List.mem_cons_self _ _
            · exact Or.inl (Or.inl hf')
          · rcases List.mem_cons.mp hg with he2 | hg'
            · refine Or.inr ⟨t, ?_, Or.inr he2.symm⟩
              simp only [dedupGo, if_neg h]
              exact List.mem_cons_self _ _
            · exact Or.inl (Or.inr hg')
        · refine Or.inr ⟨u, ?_, he⟩
          simp only [dedupGo, if_neg h]
          exact List.mem_cons_of_mem _ hu

/-- C6: deduplicate_tracks is idempotent; its output is never longer than its
input and is a stable subsequence of it; the kept tracks have pairwise
distinct loose keys and pairwise distinct title keys (each kept track is the
first whose keys were not yet recorded, a track being dropped exactly when
its loose key or its title key was already seen for a kept track); and every
input track shares its loose key or its title key with some kept track. -/
theorem deduplicate_tracks_spec (l : List Track) :
    Utils.deduplicate_tracks (Utils.deduplicate_tracks l) =
      Utils.deduplicate_tracks l ∧
    (Utils.deduplicate_tracks l).length ≤ l.length ∧
    (Utils.deduplicate_tracks l).Sublist l ∧
    ((Utils.deduplicate_tracks l).Pairwise fun u v =>
      Utils.trackKeyLoose u ≠ Utils.trackKeyLoose v ∧
        Utils.trackKeyTitle u ≠ Utils.trackKeyTitle v) ∧
    ∀ x ∈ l, ∃ u ∈ Utils.deduplicate_tracks l,
      Utils.trackKeyLoose u = Utils.trackKeyLoose x ∨
        Utils.trackKeyTitle u = Utils.trackKeyTitle x := by
  refine ⟨dedupGo_idem _ _ l [] [], (dedupGo_sublist _ _ l [] []).length_le,
    dedupGo_sublist _ _ l [] [], dedupGo_pairwise _ _ l [] [], ?_⟩
  intro x hx
  rcases dedupGo_cover Utils.trackKeyLoose Utils.trackKeyTitle l [] [] x hx with h | h
  · simp at h
  · exact h

/-- Closed instance of C6: the cover property at a concrete duplicate list. -/
theorem deduplicate_tracks_spec_witness :
    ∃ u ∈ Utils.deduplicate_tracks [demoAX, demoAY],
      Utils.trackKeyLoose u = Utils.trackKeyLoose demoAY ∨
        Utils.trackKeyTitle u = Utils.trackKeyTitle demoAY :=
  (deduplicate_tracks_spec [demoAX, demoAY]).2.2.2.2 demoAY (by decide)

/-! ## Reconciliation lemmas (legacy main) -/

theorem src_map_go (l : List Track) : ∀ m : List (Str × Track),
    (∀ t ∈ l, ∀ p ∈ m, p.1 ≠ Legacy.trackKeyLoose t) →
    (l.Pairwise fun a b => Legacy.trackKeyLoose a ≠ Legacy.trackKeyLoose b) →
    l.foldl (fun m t => Legacy.dictInsert m (Legacy.trackKeyLoose t) t) m =
      m ++ l.map fun t => (Legacy.trackKeyLoose t, t) := by
  induction l with
  | nil => intro m _ _; simp
  | cons t rest ih =>
    intro m hfresh hpw
    have hins : Legacy.dictInsert m (Legacy.trackKeyLoose t) t =
        m ++ [(Legacy.trackKeyLoose t, t)] := by
      rw [Legacy.dictInsert, if_neg]
      simp only [List.any_eq_true, decide_eq_true_eq, not_exists]
      intro p hp
      exact hfresh t (List.mem_cons_self _ _) p hp.1 hp.2
    rw [List.foldl_cons, hins]
    rw [ih (m ++ [(Legacy.trackKeyLoose t, t)]) ?_ (List.Pairwise.of_cons hpw)]
    · simp
    · intro u hu p hp
      rcases List.mem_append.mp hp with hp' | hp'
      · exact hfresh u (List.mem_cons_of_mem _ hu) p hp'
      · rcases List.mem_singleton.mp hp' with rfl
        exact (List.pairwise_cons.mp hpw).1 u hu

theorem src_map_eq_map (l : List Track)
    (h : l.Pairwise fun a b => Legacy.trackKeyLoose a ≠ Legacy.trackKeyLoose b) :
    Legacy.src_map l = l.map fun t => (Legacy.trackKeyLoose t, t) := by
  have := src_map_go l [] (by intro t _ p hp; cases hp) h
  simpa [Legacy.src_map] using this

theorem filter_map_snd (l : List Track) (q : Str × Track → Bool) :
    (((l.map fun t => (Legacy.trackKeyLoose t, t)).filter q).map Prod.snd) =
      l.filter fun t => q (Legacy.trackKeyLoose t, t) := by
  induction l with
  | nil => rfl
  | cons t rest ih =>
    by_cases h : q (Legacy.trackKeyLoose t, t) <;>
      simp [List.filter_cons, h, ih]

theorem to_add_eq_filter (src dst : List Track)
    (h : src.Pairwise fun a b => Legacy.trackKeyLoose a ≠ Legacy.trackKeyLoose b) :
    Legacy.to_add src dst = src.filter fun t => !Legacy.present_in_dst dst t := by
  rw [Legacy.to_add, src_map_eq_map src h, filter_map_snd]
  rfl

/-- C1: after both playlists are deduplicated, the to_add loop classifies a
source track as missing exactly when its loose key is absent from the
destination loose-key set and its title key is absent from the destination
title-key set; the missing and present tracks partition the deduplicated
source with no overlap, and the missing list is a stable subsequence of it. -/
theorem reconcile_partition (src dst : List Track) :
    (Legacy.to_add (Legacy.deduplicate_tracks src) (Legacy.deduplicate_tracks dst) =
      (Legacy.deduplicate_tracks src).filter fun t =>
        !Legacy.present_in_dst (Legacy.deduplicate_tracks dst) t) ∧
    ((Legacy.to_add (Legacy.deduplicate_tracks src) (Legacy.deduplicate_tracks dst) ++
        (Legacy.deduplicate_tracks src).filter fun t =>
          Legacy.present_in_dst (Legacy.deduplicate_tracks dst) t).Perm
      (Legacy.deduplicate_tracks src)) ∧
    (∀ t, ¬(t ∈ Legacy.to_add (Legacy.deduplicate_tracks src)
          (Legacy.deduplicate_tracks dst) ∧
        t ∈ (Legacy.deduplicate_tracks src).filter fun t =>
          Legacy.present_in_dst (Legacy.deduplicate_tracks dst) t)) ∧
    (Legacy.to_add (Legacy.deduplicate_tracks src)
        (Legacy.deduplicate_tracks dst)).Sublist
      (Legacy.deduplicate_tracks src) := by
  have hpw : (Legacy.deduplicate_tracks src).Pairwise fun a b =>
      Legacy.trackKeyLoose a ≠ Legacy.trackKeyLoose b :=
    (dedupGo_pairwise Legacy.trackKeyLoose Legacy.trackKeyTitle src [] []).imp
      fun h => h.1
  have heq := to_add_eq_filter (Legacy.deduplicate_tracks src)
    (Legacy.deduplicate_tracks dst) hpw
  refine ⟨heq, ?_, ?_, ?_⟩
  · rw [heq]
    have := List.filter_append_perm
      (fun t => !Legacy.present_in_dst (Legacy.deduplicate_tracks dst) t)
      (Legacy.deduplicate_tracks src)
    simpa [Bool.not_not] using this
  · intro t ⟨h1, h2⟩
    rw [heq] at h1
    have hb1 := (List.mem_filter.mp h1).2
    have hb2 := (List.mem_filter.mp h2).2
    rw [hb2] at hb1
    simp at hb1
  · rw [heq]
    exact List.filter_sublist _

/-- Closed instance of C1: the classification rule evaluated on concrete
one-track playlists whose titles collide only on the title key. -/
theorem reconcile_partition_witness :
    Legacy.to_add (Legacy.deduplicate_tracks [demoAX])
        (Legacy.deduplicate_tracks [demoAY]) =
      (Legacy.deduplicate_tracks [demoAX]).filter fun t =>
        !Legacy.present_in_dst (Legacy.deduplicate_tracks [demoAY]) t :=
  (reconcile_partition [demoAX] [demoAY]).1

theorem dictInsert_fst_present {V : Type} (m : List (Str × V)) (k : Str) (v : V)
    (h : (m.any fun p => decide (p.1 = k)) = true) :
    (Legacy.dictInsert m k v).map Prod.fst = m.map Prod.fst := by
  rw [Legacy.dictInsert, if_pos h, List.map_map]
  refine List.map_congr_left fun p _ => ?_
  by_cases hp : p.1 = k
  · simp [Function.comp, hp]
  · simp [Function.comp, hp]

theorem dictInsert_fst_absent {V : Type} (m : List (Str × V)) (k : Str) (v : V)
    (h : (m.any fun p => decide (p.1 = k)) = false) :
    (Legacy.dictInsert m k v).map Prod.fst = m.map Prod.fst ++ [k] := by
  rw [Legacy.dictInsert, if_neg (by simp [h])]
  simp

theorem src_map_keys_go (l : List Track) : ∀ m : List (Str × Track),
    ((m.map Prod.fst).Nodup) →
    (((l.foldl (fun m t => Legacy.dictInsert m (Legacy.trackKeyLoose t) t)
        m).map Prod.fst).Nodup ∧
      ∀ k, k ∈ (l.foldl (fun m t =>
          Legacy.dictInsert m (Legacy.trackKeyLoose t) t) m).map Prod.fst ↔
        k ∈ m.map Prod.fst ∨ k ∈ l.map Legacy.trackKeyLoose) := by
  induction l with
  | nil =>
    intro m hm
    refine ⟨hm, fun k => ?_⟩
    refine ⟨fun h => Or.inl h, fun h => ?_⟩
    rcases h with h | h
    · exact h
    · exact absurd h (List.not_mem_nil k)
  | cons t rest ih =>
    intro m hm
    rw [List.foldl_cons]
    by_cases h : (m.any fun p => decide (p.1 = Legacy.trackKeyLoose t)) = true
    · have hmem : Legacy.trackKeyLoose t ∈ m.map Prod.fst := by
        rcases List.any_eq_true.mp h with ⟨p, hp, hc⟩
        exact List.mem_map.mpr ⟨p, hp, of_decide_eq_true hc⟩
      have hkeys := dictInsert_fst_present m (Legacy.trackKeyLoose t) t h
      obtain ⟨hnd, hiff⟩ := ih (Legacy.dictInsert m (Legacy.trackKeyLoose t) t)
        (by rw [hkeys]; exact hm)
      refine ⟨hnd, fun k => ?_⟩
      rw [hiff k, hkeys]
      simp only [List.map_cons, List.mem_cons]
      constructor
      · rintro (hk | hk)
        · exact Or.inl hk
        · exact Or.inr (Or.inr hk)
      · rintro (hk | rfl | hk)
        · exact Or.inl hk
        · exact Or.inl hmem
        · exact Or.inr hk
    · have h' : (m.any fun p => decide (p.1 = Legacy.trackKeyLoose t)) = false :=
        Bool.eq_false_iff.mpr h
      have hnmem : Legacy.trackKeyLoose t ∉ m.map Prod.fst := by
        intro hc
        rcases List.mem_map.mp hc with ⟨p, hp, he⟩
        exact h (List.any_eq_true.mpr ⟨p, hp, decide_eq_true he⟩)
      have hkeys := dictInsert_fst_absent m (Legacy.trackKeyLoose t) t h'
      have hm2 : ((Legacy.dictInsert m (Legacy.trackKeyLoose t) t).map
          Prod.fst).Nodup := by
        rw [hkeys, List.nodup_append]
        refine ⟨hm, List.nodup_singleton _, ?_⟩
        intro a ha hb
        rw [List.mem_singleton] at hb
        subst hb
        exact hnmem ha
      obtain ⟨hnd, hiff⟩ := ih (Legacy.dictInsert m (Legacy.trackKeyLoose t) t) hm2
      refine ⟨hnd, fun k => ?_⟩
      rw [hiff k, hkeys]
      simp only [List.mem_append, List.mem_singleton, List.map_cons,
        List.mem_cons]
      tauto

/-- `already_matched` computes, for any two track lists, the cardinality of
the intersection of the source loose-key set with the destination loose-key
set: the source dict keys are exactly the distinct source loose keys. -/
theorem already_matched_eq (src dst : List Track) :
    Legacy.already_matched src dst =
      ((src.map Legacy.trackKeyLoose).toFinset ∩
        (dst.map Legacy.trackKeyLoose).toFinset).card := by
  have hgo := src_map_keys_go src [] List.Pairwise.nil
  have hnd : ((Legacy.src_map src).map Prod.fst).Nodup := hgo.1
  have hiff : ∀ k, k ∈ (Legacy.src_map src).map Prod.fst ↔
      k ∈ src.map Legacy.trackKeyLoose := by
    intro k
    have h2 := hgo.2 k
    refine ⟨fun h => ?_, fun h => h2.mpr (Or.inr h)⟩
    rcases h2.mp h with hc | hc
    · exact absurd hc (List.not_mem_nil k)
    · exact hc
  rw [Legacy.already_matched, List.dedup_eq_self.mpr hnd]
  have hnd2 : (((Legacy.src_map src).map Prod.fst).filter fun k =>
      decide (k ∈ Legacy.dst_keyset dst)).Nodup := hnd.filter _
  rw [← List.toFinset_card_of_nodup hnd2]
  congr 1
  ext k
  simp only [List.mem_toFinset, List.mem_filter, Finset.mem_inter,
    decide_eq_true_eq, Legacy.dst_keyset]
  exact and_congr (hiff k) Iff.rfl

/-- C2: the already-matched metric equals the cardinality of the intersection
of the source and destination loose-key sets only (computed from any two
lists, in particular the deduplicated ones); a track excluded from the
missing list solely by a title-only match is not counted (second scenario:
same title key, different loose keys, count 0 and nothing missing); and for
identical single-track playlists nothing is missing and the count is 1. -/
theorem already_matched_spec :
    (∀ src dst : List Track, Legacy.already_matched src dst =
      ((src.map Legacy.trackKeyLoose).toFinset ∩
        (dst.map Legacy.trackKeyLoose).toFinset).card) ∧
    (Legacy.to_add (Legacy.deduplicate_tracks [demoAlpha])
        (Legacy.deduplicate_tracks [demoAlpha]) = [] ∧
      Legacy.already_matched (Legacy.deduplicate_tracks [demoAlpha])
        (Legacy.deduplicate_tracks [demoAlpha]) = 1) ∧
    (Legacy.to_add (Legacy.deduplicate_tracks [demoAX])
        (Legacy.deduplicate_tracks [demoAY]) = [] ∧
      Legacy.already_matched (Legacy.deduplicate_tracks [demoAX])
        (Legacy.deduplicate_tracks [demoAY]) = 0) :=
  ⟨already_matched_eq, ⟨by decide, by decide⟩, ⟨by decide, by decide⟩⟩

/-! ## The quota state machine -/

theorem yt_search_one_disabled (f : Legacy.RunFlags) (o : Legacy.SearchOutcome)
    (h : f.yt_search_disabled = true) :
    Legacy.yt_search_one f o = (f, Except.ok none, false) := by
  rw [Legacy.yt_search_one.eq_def, if_pos h]

theorem yt_search_one_quota (f : Legacy.RunFlags) :
    (Legacy.yt_search_one f
      (Legacy.SearchOutcome.httpError true)).1.yt_search_disabled = true := by
  by_cases h : f.yt_search_disabled = true
  · rw [yt_search_one_disabled f _ h]
    exact h
  · rw [Legacy.yt_search_one, if_neg h]
    simp

theorem search_stage_disabled (flags : Legacy.RunFlags) (cached : Option Str)
    (inp : Legacy.ItemInput) (h : flags.yt_search_disabled = true) :
    Legacy.search_stage flags cached inp = (flags, cached, false, false, false) := by
  rw [Legacy.search_stage, if_neg]
  rintro ⟨_, h2, _⟩
  rw [h] at h2
  exact Bool.noConfusion h2

theorem search_stage_prompted (flags : Legacy.RunFlags) (cached : Option Str)
    (inp : Legacy.ItemInput) :
    ((Legacy.search_stage flags cached inp).1.prompted_after_quota =
      (flags.prompted_after_quota ||
        (Legacy.search_stage flags cached inp).2.2.2.1)) ∧
    ((Legacy.search_stage flags cached inp).2.2.2.1 = true →
      flags.prompted_after_quota = false) := by
  rw [Legacy.search_stage]
  by_cases hg : cached = none ∧ flags.yt_search_disabled = false ∧
      flags.plan_mode_only = false
  · rw [if_pos hg]
    rw [Legacy.yt_search_one.eq_def, if_neg (by simp [hg.2.1])]
    cases ho : inp.searchOutcome with
    | found v => simp
    | notFound => simp
    | httpError q =>
      dsimp only
      by_cases hp : flags.prompted_after_quota = true
      · cases q <;> simp only [Legacy.prompt_after_quota] <;>
          simp [hp] <;> try (split <;> simp [hp])
      · have hp' : flags.prompted_after_quota = false := by
          cases hb : flags.prompted_after_quota
          · rfl
          · exact absurd hb hp
        cases q <;> simp only [Legacy.prompt_after_quota] <;>
          simp [hp'] <;> try (split <;> simp [hp'])
  · rw [if_neg hg]
    simp

theorem insert_and_cache_flags (st : Legacy.EngineState) (ck vid : Str)
    (o : Legacy.InsertOutcome) (sw : Bool) :
    ((Legacy.insert_and_cache st ck vid o sw).1.flags.yt_search_disabled =
      st.flags.yt_search_disabled) ∧
    ((Legacy.insert_and_cache st ck vid o sw).1.flags.prompted_after_quota =
      st.flags.prompted_after_quota) := by
  unfold Legacy.insert_and_cache
  repeat' split
  all_goals exact ⟨rfl, rfl⟩

theorem process_item_disabled_mono (st : Legacy.EngineState) (t : Track)
    (inp : Legacy.ItemInput) (h : st.flags.yt_search_disabled = true) :
    (Legacy.process_item_youtube st t inp).1.flags.yt_search_disabled = true := by
  rw [Legacy.process_item_youtube]
  rw [search_stage_disabled st.flags _ inp h]
  dsimp only
  cases hc : Legacy.cache_get st.cache
      (Legacy.cache_key (String.toList "youtube") t.name t.artists) with
  | none =>
    cases hw : inp.webOrManualVid with
    | none => exact h
    | some w =>
      exact ((insert_and_cache_flags { st with flags := st.flags }
        (Legacy.cache_key (String.toList "youtube") t.name t.artists) w
        inp.insertOutcome inp.switchToPlanning).1).trans h
  | some v =>
    exact ((insert_and_cache_flags { st with flags := st.flags }
      (Legacy.cache_key (String.toList "youtube") t.name t.artists) v
      inp.insertOutcome inp.switchToPlanning).1).trans h

theorem process_item_prompted (st : Legacy.EngineState) (t : Track)
    (inp : Legacy.ItemInput) :
    ((Legacy.process_item_youtube st t inp).1.flags.prompted_after_quota =
      (st.flags.prompted_after_quota ||
        (Legacy.process_item_youtube st t inp).2.1.promptShown)) ∧
    ((Legacy.process_item_youtube st t inp).2.1.promptShown = true →
      st.flags.prompted_after_quota = false) := by
  have hb := search_stage_prompted st.flags
    (Legacy.cache_get st.cache
      (Legacy.cache_key (String.toList "youtube") t.name t.artists)) inp
  rw [Legacy.process_item_youtube]
  rcases hs : Legacy.search_stage st.flags
      (Legacy.cache_get st.cache
        (Legacy.cache_key (String.toList "youtube") t.name t.artists)) inp with
    ⟨flags1, vid1, issued, shown, stopped⟩
  rw [hs] at hb
  dsimp only at hb
  cases stopped with
  | true => exact hb
  | false =>
    cases vid1 with
    | none =>
      cases hw : inp.webOrManualVid with
      | none => exact hb
      | some w =>
        exact ⟨((insert_and_cache_flags { st with flags := flags1 }
          (Legacy.cache_key (String.toList "youtube") t.name t.artists) w
          inp.insertOutcome inp.switchToPlanning).2).trans hb.1, hb.2⟩
    | some v =>
      exact ⟨((insert_and_cache_flags { st with flags := flags1 }
        (Legacy.cache_key (String.toList "youtube") t.name t.artists) v
        inp.insertOutcome inp.switchToPlanning).2).trans hb.1, hb.2⟩

theorem process_item_trace (st : Legacy.EngineState) (t : Track)
    (inp : Legacy.ItemInput) :
    ((Legacy.process_item_youtube st t inp).2.1.startedDisabled =
      st.flags.yt_search_disabled) ∧
    (st.flags.yt_search_disabled = true →
      (Legacy.process_item_youtube st t inp).2.1.searchCallIssued = false) := by
  by_cases h : st.flags.yt_search_disabled = true
  · rw [Legacy.process_item_youtube, search_stage_disabled st.flags _ inp h]
    dsimp only
    cases hc : Legacy.cache_get st.cache
        (Legacy.cache_key (String.toList "youtube") t.name t.artists) with
    | none =>
      cases hw : inp.webOrManualVid with
      | none => exact ⟨rfl, fun _ => rfl⟩
      | some w => exact ⟨rfl, fun _ => rfl⟩
    | some v => exact ⟨rfl, fun _ => rfl⟩
  · rw [Legacy.process_item_youtube]
    rcases hs : Legacy.search_stage st.flags
        (Legacy.cache_get st.cache
          (Legacy.cache_key (String.toList "youtube") t.name t.artists)) inp with
      ⟨flags1, vid1, issued, shown, stopped⟩
    cases stopped with
    | true => exact ⟨rfl, fun hh => absurd hh h⟩
    | false =>
      cases vid1 with
      | none =>
        cases hw : inp.webOrManualVid with
        | none => exact ⟨rfl, fun hh => absurd hh h⟩
        | some w => exact ⟨rfl, fun hh => absurd hh h⟩
      | some v => exact ⟨rfl, fun hh => absurd hh h⟩

theorem run_items_disabled_mono (items : List (Track × Legacy.ItemInput)) :
    ∀ st : Legacy.EngineState, st.flags.yt_search_disabled = true →
      (Legacy.run_items st items).1.flags.yt_search_disabled = true := by
  induction items with
  | nil => intro st h; exact h
  | cons it rest ih =>
    intro st h
    rcases it with ⟨t, inp⟩
    have hmono := process_item_disabled_mono st t inp h
    rw [Legacy.run_items]
    rcases hp : Legacy.process_item_youtube st t inp with ⟨st2, tr, stopped⟩
    rw [hp] at hmono
    dsimp only at hmono
    cases stopped with
    | true => exact hmono
    | false =>
      dsimp only
      rcases hr : Legacy.run_items st2 rest with ⟨st3, trs⟩
      have := ih st2 hmono
      rw [hr] at this
      exact this

theorem run_items_prompt_count (items : List (Track × Legacy.ItemInput)) :
    ∀ st : Legacy.EngineState,
      ((Legacy.run_items st items).2.countP (fun tr => tr.promptShown)) ≤
        (if st.flags.prompted_after_quota then 0 else 1) := by
  induction items with
  | nil => intro st; simp [Legacy.run_items]
  | cons it rest ih =>
    intro st
    rcases it with ⟨t, inp⟩
    have hpr := process_item_prompted st t inp
    rw [Legacy.run_items]
    rcases hp : Legacy.process_item_youtube st t inp with ⟨st2, tr, stopped⟩
    rw [hp] at hpr
    dsimp only at hpr
    cases hshown : tr.promptShown with
    | true =>
      have hold : st.flags.prompted_after_quota = false := hpr.2 hshown
      have hnew : st2.flags.prompted_after_quota = true := by
        rw [hpr.1, hold, hshown]
        rfl
      rw [hold]
      cases stopped with
      | true =>
        simp [List.countP_cons, hshown]
      | false =>
        dsimp only
        rcases hr : Legacy.run_items st2 rest with ⟨st3, trs⟩
        have hrest := ih st2
        rw [hr, hnew] at hrest
        simp only [if_true] at hrest
        simp [List.countP_cons, hshown, Nat.le_antisymm hrest (Nat.zero_le _)]
    | false =>
      have hsame : st2.flags.prompted_after_quota = st.flags.prompted_after_quota := by
        rw [hpr.1, hshown]
        simp
      cases stopped with
      | true =>
        simp [List.countP_cons, hshown]
      | false =>
        dsimp only
        rcases hr : Legacy.run_items st2 rest with ⟨st3, trs⟩
        have hrest := ih st2
        rw [hr, hsame] at hrest
        simpa [List.countP_cons, hshown] using hrest

theorem run_items_no_search_when_disabled (items : List (Track × Legacy.ItemInput)) :
    ∀ st : Legacy.EngineState, ∀ tr ∈ (Legacy.run_items st items).2,
      tr.startedDisabled = true → tr.searchCallIssued = false := by
  induction items with
  | nil => intro st tr htr; simp [Legacy.run_items] at htr
  | cons it rest ih =>
    intro st tr htr hst
    rcases it with ⟨t, inp⟩
    have htrace := process_item_trace st t inp
    rw [Legacy.run_items] at htr
    rcases hp : Legacy.process_item_youtube st t inp with ⟨st2, tr2, stopped⟩
    rw [hp] at htr htrace
    dsimp only at htr htrace
    cases stopped with
    | true =>
      rcases List.mem_singleton.mp htr with rfl
      exact htrace.2 (htrace.1 ▸ hst)
    | false =>
      dsimp only at htr
      rcases hr : Legacy.run_items st2 rest with ⟨st3, trs⟩
      rw [hr] at htr
      rcases List.mem_cons.mp htr with rfl | htr'
      · exact htrace.2 (htrace.1 ▸ hst)
      · have := ih st2 tr
        rw [hr] at this
        exact this htr' hst

/-- C3: a quota signal from the search path sets the search-disabled flag;
with the flag set, yt_search_one returns None without issuing any API call;
the flag is never cleared, neither by a single loop iteration nor across a
whole run; the after-quota prompt is shown at most once per run (never when
the guard flag is already set); and every item that starts with search
disabled issues no catalog-search call. -/
theorem quota_state_machine :
    (∀ f : Legacy.RunFlags,
      (Legacy.yt_search_one f
        (Legacy.SearchOutcome.httpError true)).1.yt_search_disabled = true) ∧
    (∀ (f : Legacy.RunFlags) (o : Legacy.SearchOutcome),
      f.yt_search_disabled = true →
        Legacy.yt_search_one f o = (f, Except.ok none, false)) ∧
    (∀ (st : Legacy.EngineState) (t : Track) (inp : Legacy.ItemInput),
      st.flags.yt_search_disabled = true →
        (Legacy.process_item_youtube st t inp).1.flags.yt_search_disabled = true) ∧
    (∀ (st : Legacy.EngineState) (items : List (Track × Legacy.ItemInput)),
      st.flags.yt_search_disabled = true →
        (Legacy.run_items st items).1.flags.yt_search_disabled = true) ∧
    (∀ (st : Legacy.EngineState) (items : List (Track × Legacy.ItemInput)),
      ((Legacy.run_items st items).2.countP fun tr => tr.promptShown) ≤
        (if st.flags.prompted_after_quota then 0 else 1)) ∧
    (∀ (st : Legacy.EngineState) (items : List (Track × Legacy.ItemInput)),
      ∀ tr ∈ (Legacy.run_items st items).2,
        tr.startedDisabled = true → tr.searchCallIssued = false) :=
  ⟨yt_search_one_quota, yt_search_one_disabled,
   process_item_disabled_mono,
   fun st items h => run_items_disabled_mono items st h,
   fun st items => run_items_prompt_count items st,
   fun st items => run_items_no_search_when_disabled items st⟩

/-- Closed instance of C3: a five-item run whose third item hits the quota
shows the prompt exactly once and issues no search call afterwards. -/
theorem quota_state_machine_witness :
    ((Legacy.run_items freshState
        [(demoAlpha, plainItem), (demoAlpha, plainItem),
         (demoAlpha, ⟨Legacy.SearchOutcome.httpError true,
           Legacy.QuotaChoice.webAuto, none, Legacy.InsertOutcome.ok, false⟩),
         (demoAlpha, plainItem), (demoAlpha, plainItem)]).2.countP
      fun tr => tr.promptShown) ≤ 1 := by
  have h := quota_state_machine.2.2.2.2.1 freshState
    [(demoAlpha, plainItem), (demoAlpha, plainItem),
     (demoAlpha, ⟨Legacy.SearchOutcome.httpError true,
       Legacy.QuotaChoice.webAuto, none, Legacy.InsertOutcome.ok, false⟩),
     (demoAlpha, plainItem), (demoAlpha, plainItem)]
  simpa using h

/-! ## Cache write ordering -/

theorem cache_get_overwrite (k v : Str) : ∀ m : List (Str × Str),
    (m.any fun p => decide (p.1 = k)) = true →
    Legacy.cache_get (m.map fun p => if p.1 = k then (k, v) else p) k = some v := by
  intro m
  induction m with
  | nil => intro h; simp at h
  | cons p rest ih =>
    intro h
    rw [List.map_cons]
    by_cases hp : p.1 = k
    · rw [if_pos hp]
      simp [Legacy.cache_get]
    · rw [if_neg hp]
      have hrest : (rest.any fun q => decide (q.1 = k)) = true := by
        rcases List.any_eq_true.mp h with ⟨x, hx, hc⟩
        rcases List.mem_cons.mp hx with rfl | hx'
        · exact absurd (of_decide_eq_true hc) hp
        · exact List.any_eq_true.mpr ⟨x, hx', hc⟩
      have hr := ih hrest
      rw [Legacy.cache_get] at hr ⊢
      rw [List.find?_cons_of_neg]
      · exact hr
      · simp [hp]

theorem cache_get_append_fresh (k v : Str) : ∀ m : List (Str × Str),
    (m.any fun p => decide (p.1 = k)) = false →
    Legacy.cache_get (m ++ [(k, v)]) k = some v := by
  intro m
  induction m with
  | nil => intro _; simp [Legacy.cache_get]
  | cons p rest ih =>
    intro h
    have hp : ¬p.1 = k := by
      intro hc
      have : (List.any (p :: rest) fun q => decide (q.1 = k)) = true :=
        List.any_eq_true.mpr ⟨p, List.mem_cons_self _ _, decide_eq_true hc⟩
      rw [h] at this
      exact Bool.noConfusion this
    have hrest : (rest.any fun q => decide (q.1 = k)) = false := by
      cases hb : rest.any fun q => decide (q.1 = k)
      · rfl
      · rcases List.any_eq_true.mp hb with ⟨x, hx, hc⟩
        have : (List.any (p :: rest) fun q => decide (q.1 = k)) = true :=
          List.any_eq_true.mpr ⟨x, List.mem_cons_of_mem _ hx, hc⟩
        rw [h] at this
        exact Bool.noConfusion this
    have hr := ih hrest
    rw [Legacy.cache_get] at hr ⊢
    rw [List.cons_append, List.find?_cons_of_neg]
    · exact hr
    · simp [hp]

theorem cache_get_dictInsert (m : List (Str × Str)) (k v : Str) :
    Legacy.cache_get (Legacy.dictInsert m k v) k = some v := by
  rw [Legacy.dictInsert]
  by_cases h : (m.any fun p => decide (p.1 = k)) = true
  · rw [if_pos h]
    exact cache_get_overwrite k v m h
  · rw [if_neg h]
    exact cache_get_append_fresh k v m (Bool.eq_false_iff.mpr h)

/-- C4 counterexample: a fresh run resolves an item through the search, the
destination insert fails with QuotaExceeded and the user switches to planning
mode; the resolved identifier is preserved in the pending exports but the
resolution cache does not contain it, contradicting the claim that the cache
is written before the destination write is attempted. -/
theorem cache_before_write_counterexample :
    (Legacy.process_item_youtube freshState demoAlpha quotaItem).1.cache = [] ∧
    (Legacy.process_item_youtube freshState demoAlpha
        quotaItem).1.pending_web_adds = [String.toList "v1"] ∧
    (Legacy.process_item_youtube freshState demoAlpha
        quotaItem).1.flags.plan_mode_only = true :=
  ⟨by decide, by decide, by decide⟩

/-- C4 amended: in planning mode a resolved identifier is cached and no
insert is attempted; on the normal YouTube path with a fresh identifier, the
insert is attempted first and the cache is written only after it succeeds; a
QuotaExceeded during the insert leaves the cache unchanged and, when the
user switches to planning mode, moves the identifier into the pending
exports (declining stops the run); on the Spotify path a search hit is
cached during item processing and the destination write is batched only
after the whole loop. -/
theorem resolution_cache_write_order :
    (∀ (st : Legacy.EngineState) (ck v : Str) (o : Legacy.InsertOutcome)
        (sw : Bool), st.flags.plan_mode_only = true →
      Legacy.cache_get (Legacy.insert_and_cache st ck v o sw).1.cache ck =
          some v ∧
        (Legacy.insert_and_cache st ck v o sw).2.2 = false) ∧
    (∀ (st : Legacy.EngineState) (ck v : Str) (sw : Bool),
      st.flags.plan_mode_only = false → v ∉ st.added_video_ids →
        Legacy.cache_get (Legacy.insert_and_cache st ck v
            Legacy.InsertOutcome.ok sw).1.cache ck = some v ∧
          (Legacy.insert_and_cache st ck v
            Legacy.InsertOutcome.ok sw).2.2 = true) ∧
    (∀ (st : Legacy.EngineState) (ck v : Str),
      st.flags.plan_mode_only = false → v ∉ st.added_video_ids →
        (Legacy.insert_and_cache st ck v
            Legacy.InsertOutcome.quota true).1.cache = st.cache ∧
          v ∈ (Legacy.insert_and_cache st ck v
            Legacy.InsertOutcome.quota true).1.pending_web_adds ∧
          (Legacy.insert_and_cache st ck v
            Legacy.InsertOutcome.quota false).2.1 = true) ∧
    (∀ (cache : List (Str × Str)) (uris : List Str) (t : Track) (uri : Str)
        (manual : Option Str),
      Legacy.cache_get cache
          (Legacy.cache_key (String.toList "spotify") t.name t.artists) = none →
        Legacy.cache_get (Legacy.process_item_spotify cache uris t
            (Legacy.SpSearchOutcome.found uri) manual).1
          (Legacy.cache_key (String.toList "spotify") t.name t.artists) =
            some uri) := by
  refine ⟨?_, ?_, ?_, ?_⟩
  · intro st ck v o sw hplan
    rw [Legacy.insert_and_cache.eq_def, if_pos hplan]
    exact ⟨cache_get_dictInsert st.cache ck v, rfl⟩
  · intro st ck v sw hplan hfresh
    rw [Legacy.insert_and_cache.eq_def, if_neg (by simp [hplan]),
      if_neg (by simpa using hfresh)]
    exact ⟨cache_get_dictInsert st.cache ck v, rfl⟩
  · intro st ck v hplan hfresh
    constructor
    · rw [Legacy.insert_and_cache.eq_def, if_neg (by simp [hplan]),
        if_neg (by simpa using hfresh)]
      rfl
    constructor
    · rw [Legacy.insert_and_cache.eq_def, if_neg (by simp [hplan]),
        if_neg (by simpa using hfresh)]
      dsimp only
      rw [if_pos rfl]
      exact List.mem_append.mpr (Or.inr (List.mem_singleton.mpr rfl))
    · rw [Legacy.insert_and_cache.eq_def, if_neg (by simp [hplan]),
        if_neg (by simpa using hfresh)]
      dsimp only
      rw [if_neg (by simp)]
  · intro cache uris t uri manual hmiss
    rw [Legacy.process_item_spotify, hmiss]
    exact cache_get_dictInsert cache _ uri

/-- Closed instance of the amended C4: the planning-mode branch caches the
identifier without attempting an insert. -/
theorem resolution_cache_write_order_witness :
    Legacy.cache_get (Legacy.insert_and_cache
        ⟨⟨false, false, false, false, true⟩, [], [], []⟩
        (String.toList "k") (String.toList "v1")
        Legacy.InsertOutcome.ok false).1.cache (String.toList "k") =
      some (String.toList "v1") :=
  (resolution_cache_write_order.1
    ⟨⟨false, false, false, false, true⟩, [], [], []⟩
    (String.toList "k") (String.toList "v1")
    Legacy.InsertOutcome.ok false rfl).1

/-! ## Title normalization is not idempotent -/

/-- C5 (the spec states idempotence; the code violates it): the underscore is
a regex word character, so in "edit_x" the qualifier word "edit" has no
trailing word boundary and survives the qualifier-removal stages; the later
separator replacement then frees it, and a second application removes it.
Both clean_title variants behave identically here. -/
theorem clean_title_not_idempotent :
    Utils.clean_title (String.toList "edit_x") = String.toList "edit x" ∧
    Utils.clean_title (Utils.clean_title (String.toList "edit_x")) =
      String.toList "x" ∧
    Utils.clean_title (Utils.clean_title (String.toList "edit_x")) ≠
      Utils.clean_title (String.toList "edit_x") ∧
    Legacy.clean_title (Legacy.clean_title (String.toList "edit_x")) ≠
      Legacy.clean_title (String.toList "edit_x") :=
  ⟨by decide, by decide, by decide, by decide⟩

/-! ## Near-duplicate detection -/

theorem find?_decomp {α : Type} (p : α → Bool) : ∀ (l : List α) (b : α),
    l.find? p = some b →
    ∃ pre post, l = pre ++ b :: post ∧ p b = true ∧ ∀ a ∈ pre, p a = false := by
  intro l
  induction l with
  | nil => intro b h; simp [List.find?] at h
  | cons a rest ih =>
    intro b h
    by_cases hp : p a = true
    · rw [List.find?_cons_of_pos _ hp] at h
      rcases Option.some_inj.mp h with rfl
      exact ⟨[], rest, rfl, hp, by intro x hx; cases hx⟩
    · rw [List.find?_cons_of_neg _ (by simpa using hp)] at h
      obtain ⟨pre, post, he, hb, hall⟩ := ih b h
      refine ⟨a :: pre, post, by rw [he]; rfl, hb, ?_⟩
      intro x hx
      rcases List.mem_cons.mp hx with rfl | hx'
      · cases hv : p x
        · rfl
        · exact absurd hv hp
      · exact hall x hx'

theorem keptGo_extends (θ : ℚ) (l : List Track) : ∀ kept,
    ∃ ext, Manager.keptGo θ kept l = kept ++ ext ∧ ext.Sublist l := by
  induction l with
  | nil =>
    intro kept
    exact ⟨[], by simp [Manager.keptGo], List.nil_sublist _⟩
  | cons t rest ih =>
    intro kept
    rw [Manager.keptGo]
    cases hf : kept.find? fun k => Manager.is_similar (Utils.clean_title t.name)
        (clean_artists t.artists) k θ with
    | some k0 =>
      obtain ⟨ext, he, hs⟩ := ih kept
      exact ⟨ext, he, hs.cons t⟩
    | none =>
      obtain ⟨ext, he, hs⟩ := ih (kept ++ [t])
      refine ⟨t :: ext, ?_, hs.cons₂ t⟩
      rw [he, List.append_assoc]
      rfl

theorem detectGo_sublist (θ : ℚ) (l : List Track) : ∀ kept,
    (Manager.detectGo θ kept l).Sublist l := by
  induction l with
  | nil => intro kept; simp [Manager.detectGo]
  | cons t rest ih =>
    intro kept
    rw [Manager.detectGo]
    cases hf : kept.find? fun k => Manager.is_similar (Utils.clean_title t.name)
        (clean_artists t.artists) k θ with
    | some k0 => exact (ih kept).cons₂ t
    | none => exact (ih (kept ++ [t])).cons t

theorem detect_kept_perm (θ : ℚ) (l : List Track) : ∀ kept,
    (Manager.detectGo θ kept l ++ Manager.keptGo θ kept l).Perm (kept ++ l) := by
  induction l with
  | nil => intro kept; simp [Manager.detectGo, Manager.keptGo]
  | cons t rest ih =>
    intro kept
    rw [Manager.detectGo, Manager.keptGo]
    cases hf : kept.find? fun k => Manager.is_similar (Utils.clean_title t.name)
        (clean_artists t.artists) k θ with
    | some k0 => exact ((ih kept).cons t).trans List.perm_middle.symm
    | none =>
      have h := ih (kept ++ [t])
      rw [List.append_assoc] at h
      exact h

theorem detectGo_first_match (θ : ℚ) (l : List Track) : ∀ kept d,
    d ∈ Manager.detectGo θ kept l →
    ∃ pre k post, Manager.keptGo θ kept l = pre ++ k :: post ∧
      Manager.is_similar (Utils.clean_title d.name)
        (clean_artists d.artists) k θ = true ∧
      ∀ k' ∈ pre, Manager.is_similar (Utils.clean_title d.name)
        (clean_artists d.artists) k' θ = false := by
  induction l with
  | nil => intro kept d hd; simp [Manager.detectGo] at hd
  | cons t rest ih =>
    intro kept d hd
    rw [Manager.detectGo] at hd
    rw [Manager.keptGo]
    cases hf : kept.find? fun k => Manager.is_similar (Utils.clean_title t.name)
        (clean_artists t.artists) k θ with
    | some k0 =>
      rw [hf] at hd
      rcases List.mem_cons.mp hd with rfl | hd'
      · obtain ⟨pre, post, he, hb, hall⟩ := find?_decomp _ kept k0 hf
        obtain ⟨ext, hext, _⟩ := keptGo_extends θ rest kept
        refine ⟨pre, k0, post ++ ext, ?_, hb, hall⟩
        rw [hext, he, List.append_assoc]
        rfl
      · exact ih kept d hd'
    | none =>
      rw [hf] at hd
      exact ih (kept ++ [t]) d hd

theorem keptGo_pairwise (θ : ℚ) (l : List Track) : ∀ kept,
    (kept.Pairwise fun a b => Manager.is_similar (Utils.clean_title b.name)
      (clean_artists b.artists) a θ = false) →
    (Manager.keptGo θ kept l).Pairwise fun a b =>
      Manager.is_similar (Utils.clean_title b.name)
        (clean_artists b.artists) a θ = false := by
  induction l with
  | nil => intro kept h; simpa [Manager.keptGo] using h
  | cons t rest ih =>
    intro kept h
    rw [Manager.keptGo]
    cases hf : kept.find? fun k => Manager.is_similar (Utils.clean_title t.name)
        (clean_artists t.artists) k θ with
    | some k0 => exact ih kept h
    | none =>
      refine ih (kept ++ [t]) ?_
      rw [List.pairwise_append]
      refine ⟨h, List.pairwise_singleton _ _, ?_⟩
      intro a ha b hb
      rcases List.mem_singleton.mp hb with rfl
      have h2 := List.find?_eq_none.mp hf a ha
      cases hv : Manager.is_similar (Utils.clean_title b.name)
          (clean_artists b.artists) a θ
      · rfl
      · exact absurd hv h2

/-- C7: a track is classified a duplicate of a kept track exactly when the
title similarity ratio reaches the threshold and the artist signatures
intersect or either is empty; the duplicates and the kept tracks partition
the scanned list; every returned duplicate has a first matching kept track
(all kept tracks before it fail the similarity test); no kept track matches
an earlier kept track (so a track that joined kept matched nothing); and the
returned list is a stable subsequence containing only the duplicates. -/
theorem detect_duplicates_spec :
    (∀ (ct : Str) (ca : List Str) (k : Track) (θ : ℚ),
      Manager.is_similar ct ca k θ = true ↔
        (θ ≤ smRatio ct (Utils.clean_title k.name) ∧
          ((∃ x ∈ ca, x ∈ clean_artists k.artists) ∨
            clean_artists k.artists = [] ∨ ca = []))) ∧
    (∀ (l : List Track) (θ : ℚ),
      (Manager.detect_duplicates l θ ++ Manager.kept_tracks l θ).Perm l) ∧
    (∀ (l : List Track) (θ : ℚ) (d : Track),
      d ∈ Manager.detect_duplicates l θ →
        ∃ pre k post, Manager.kept_tracks l θ = pre ++ k :: post ∧
          Manager.is_similar (Utils.clean_title d.name)
            (clean_artists d.artists) k θ = true ∧
          ∀ k' ∈ pre, Manager.is_similar (Utils.clean_title d.name)
            (clean_artists d.artists) k' θ = false) ∧
    (∀ (l : List Track) (θ : ℚ),
      (Manager.kept_tracks l θ).Pairwise fun a b =>
        Manager.is_similar (Utils.clean_title b.name)
          (clean_artists b.artists) a θ = false) ∧
    (∀ (l : List Track) (θ : ℚ), (Manager.detect_duplicates l θ).Sublist l) := by
  refine ⟨?_, ?_, ?_, ?_, ?_⟩
  · intro ct ca k θ
    rw [Manager.is_similar]
    simp only [Bool.and_eq_true, Bool.or_eq_true, decide_eq_true_eq,
      List.any_eq_true]
    rw [or_assoc]
  · intro l θ
    have h := detect_kept_perm θ l []
    simpa using h
  · intro l θ d hd
    exact detectGo_first_match θ l [] d hd
  · intro l θ
    exact keptGo_pairwise θ l [] List.Pairwise.nil
  · intro l θ
    exact detectGo_sublist θ l []

/-- Closed instance of C7: two identical tracks at threshold 1; the second
is returned as a duplicate and has the first as its matching kept track. -/
theorem detect_duplicates_spec_witness :
    ∃ pre k post,
      Manager.kept_tracks [demoAX, demoAX] 1 = pre ++ k :: post ∧
      Manager.is_similar (Utils.clean_title demoAX.name)
        (clean_artists demoAX.artists) k 1 = true ∧
      ∀ k' ∈ pre, Manager.is_similar (Utils.clean_title demoAX.name)
        (clean_artists demoAX.artists) k' 1 = false := by
  have hm : matchTotal 3 [ 'a' ] [ 'a' ] = 1 := by decide
  have hr : smRatio (String.toList "a") (String.toList "a") = 1 := by
    rw [smRatio]
    norm_num [hm]
  have hct : Utils.clean_title (String.toList "a") = String.toList "a" := by
    decide
  have hsim : Manager.is_similar (Utils.clean_title demoAX.name)
      (clean_artists demoAX.artists) demoAX 1 = true := by
    rw [Manager.is_similar]
    have hca : clean_artists demoAX.artists = [String.toList "x"] := by decide
    show (decide ((1 : ℚ) ≤ smRatio (Utils.clean_title (String.toList "a"))
        (Utils.clean_title (String.toList "a"))) && _) = true
    rw [hct, hr, hca]
    simp
  have hfind : List.find? (fun k => Manager.is_similar
      (Utils.clean_title demoAX.name) (clean_artists demoAX.artists) k 1)
      [demoAX] = some demoAX := by
    rw [List.find?]
    rw [hsim]
  have hmem : demoAX ∈ Manager.detect_duplicates [demoAX, demoAX] 1 := by
    show demoAX ∈ Manager.detectGo 1 [] [demoAX, demoAX]
    rw [Manager.detectGo]
    rw [show (List.find? (fun k => Manager.is_similar
        (Utils.clean_title demoAX.name) (clean_artists demoAX.artists) k 1)
        ([] : List Track)) = none from rfl]
    show demoAX ∈ Manager.detectGo 1 ([] ++ [demoAX]) [demoAX]
    rw [List.nil_append, Manager.detectGo, hfind]
    exact List.mem_cons_self _ _
  exact detect_duplicates_spec.2.2.1 [demoAX, demoAX] 1 demoAX hmem

/-! ## C8: characterising the two token_set implementations -/

theorem alnum_not_space (c : Char) (h : isLowerAlnum c = true) :
    isSpaceChar c = false := by
  cases hsp : isSpaceChar c
  · rfl
  · exfalso
    simp only [isSpaceChar, Bool.or_eq_true, decide_eq_true_eq] at hsp
    simp only [isLowerAlnum, Bool.or_eq_true, decide_eq_true_eq] at h
    rcases hsp with (he | hr) | hr
    · subst he
      revert h
      decide
    · rcases h with h | h <;> omega
    · rcases h with h | h <;> omega

theorem alnumTokensGo_ne_nil :
    ∀ (t cur w : Str), w ∈ alnumTokensGo cur t → w ≠ [] := by
  intro t
  induction t with
  | nil =>
    intro cur w hw
    simp only [alnumTokensGo] at hw
    by_cases hcur : cur = []
    · rw [if_pos hcur] at hw
      exact absurd hw (List.not_mem_nil w)
    · rw [if_neg hcur] at hw
      rcases List.mem_singleton.mp hw with rfl
      intro h
      exact hcur (by simpa using h)
  | cons c rest ih =>
    intro cur w hw
    simp only [alnumTokensGo] at hw
    by_cases ha : isLowerAlnum c = true
    · rw [if_pos ha] at hw
      exact ih (c :: cur) w hw
    · rw [if_neg ha] at hw
      by_cases hcur : cur = []
      · rw [if_pos hcur] at hw
        exact ih [] w hw
      · rw [if_neg hcur] at hw
        rcases List.mem_cons.mp hw with rfl | hw2
        · intro h
          exact hcur (by simpa using h)
        · exact ih [] w hw2

/-- The `[^a-z0-9 ]+ → " "` substitution followed by `str.split()` yields
exactly the maximal `[a-z0-9]` runs: the inserted spaces only ever separate
tokens.  The invariant says the word accumulator is empty while inside a
bad run. -/
theorem splitWordsGo_runSub :
    ∀ (t cur : Str) (inRun : Bool), (inRun = true → cur = []) →
      splitWordsGo cur
          (runSub (fun c => !(isLowerAlnum c || decide (c = ' '))) inRun t) =
        alnumTokensGo cur t := by
  intro t
  induction t with
  | nil =>
    intro cur inRun _
    cases inRun <;> rfl
  | cons c rest ih =>
    intro cur inRun hinv
    by_cases ha : isLowerAlnum c = true
    · have hsp : isSpaceChar c = false := alnum_not_space c ha
      have hb : (!(isLowerAlnum c || decide (c = ' '))) = false := by
        rw [ha]
        rfl
      simp only [runSub]
      rw [if_neg (by simp [hb])]
      simp only [splitWordsGo]
      rw [if_neg (by simp [hsp])]
      simp only [alnumTokensGo]
      rw [if_pos ha]
      exact ih (c :: cur) false fun h => Bool.noConfusion h
    · by_cases hc : c = ' '
      · subst hc
        have h1 : runSub (fun c => !(isLowerAlnum c || decide (c = ' '))) inRun
            (' ' :: rest) =
            ' ' :: runSub (fun c => !(isLowerAlnum c || decide (c = ' ')))
              false rest := by
          cases inRun <;> rfl
        rw [h1]
        have h2 : splitWordsGo cur
            (' ' :: runSub (fun c => !(isLowerAlnum c || decide (c = ' ')))
              false rest) =
            if cur = [] then
              splitWordsGo []
                (runSub (fun c => !(isLowerAlnum c || decide (c = ' ')))
                  false rest)
            else cur.reverse ::
              splitWordsGo []
                (runSub (fun c => !(isLowerAlnum c || decide (c = ' ')))
                  false rest) := rfl
        have h3 : alnumTokensGo cur (' ' :: rest) =
            if cur = [] then alnumTokensGo [] rest
            else cur.reverse :: alnumTokensGo [] rest := rfl
        rw [h2, h3]
        by_cases hcur : cur = []
        · rw [if_pos hcur, if_pos hcur]
          exact ih [] false fun h => Bool.noConfusion h
        · rw [if_neg hcur, if_neg hcur]
          rw [ih [] false fun h => Bool.noConfusion h]
      · have ha' : isLowerAlnum c = false := Bool.eq_false_iff.mpr ha
        have hc' : decide (c = ' ') = false := decide_eq_false_iff_not.mpr hc
        have hb : (!(isLowerAlnum c || decide (c = ' '))) = true := by
          rw [ha', hc']
          rfl
        simp only [runSub]
        rw [if_pos hb]
        cases inRun with
        | true =>
          have hcur := hinv rfl
          subst hcur
          rw [if_pos rfl]
          rw [ih [] true fun _ => rfl]
          simp only [alnumTokensGo]
          rw [if_neg (by simp [ha'])]
          simp
        | false =>
          rw [if_neg Bool.false_ne_true]
          have h2 : splitWordsGo cur
              (' ' :: runSub (fun c => !(isLowerAlnum c || decide (c = ' ')))
                true rest) =
              if cur = [] then
                splitWordsGo []
                  (runSub (fun c => !(isLowerAlnum c || decide (c = ' ')))
                    true rest)
              else cur.reverse ::
                splitWordsGo []
                  (runSub (fun c => !(isLowerAlnum c || decide (c = ' ')))
                    true rest) := rfl
          have h3 : alnumTokensGo cur (c :: rest) =
              if cur = [] then alnumTokensGo [] rest
              else cur.reverse :: alnumTokensGo [] rest := by
            simp only [alnumTokensGo]
            rw [if_neg (by simp [ha'])]
          rw [h2, h3]
          by_cases hcur : cur = []
          · rw [if_pos hcur, if_pos hcur]
            exact ih [] true fun _ => rfl
          · rw [if_neg hcur, if_neg hcur]
            rw [ih [] true fun _ => rfl]

theorem splitWords_runSub (t : Str) :
    splitWords (runSub (fun c => !(isLowerAlnum c || decide (c = ' ')))
        false t) = alnumTokens t :=
  splitWordsGo_runSub t [] false fun h => Bool.noConfusion h

/-- C8 counterexample: the claimed 17-word stop list matches neither
implementation.  The legacy stop list lacks "featuring", so "featuring"
survives legacy token_set; the websearch stop list lacks "radio", so
"radio" survives websearch token_set. -/
theorem token_set_counterexample :
    String.toList "featuring" ∈ Legacy.token_set (String.toList "featuring") ∧
    String.toList "radio" ∈ Websearch.token_set (String.toList "radio") := by
  decide

/-- C8 (amended): a word lies in the legacy token_set exactly when it is a
maximal [a-z0-9] token of the ASCII-folded, lowercased text and lies outside
the legacy 16-word stop list (the, a, an, official, video, audio, lyrics,
lyric, remix, edit, radio, version, feat, ft, con, with — no "featuring").
The refactored websearch token_set does not satisfy the maximal-token
description: its literal substring replacement of "video" splits
"videodrome" into "drome". -/
theorem token_set_characterization :
    (∀ (s w : Str), w ∈ Legacy.token_set s ↔
      (w ∈ alnumTokens (foldAscii s) ∧ w ∉ Legacy.stopWords)) ∧
    String.toList "drome" ∈ Websearch.token_set (String.toList "videodrome") ∧
    String.toList "videodrome" ∉
      Websearch.token_set (String.toList "videodrome") := by
  refine ⟨?_, by decide, by decide⟩
  intro s w
  rw [Legacy.token_set, List.mem_toFinset, List.mem_filter, splitWords_runSub]
  constructor
  · rintro ⟨hmem, hp⟩
    simp only [Bool.and_eq_true, decide_eq_true_eq, Bool.not_eq_true',
      decide_eq_false_iff_not] at hp
    exact ⟨hmem, hp.2⟩
  · rintro ⟨hmem, hstop⟩
    refine ⟨hmem, ?_⟩
    simp only [Bool.and_eq_true, decide_eq_true_eq, Bool.not_eq_true',
      decide_eq_false_iff_not]
    exact ⟨alnumTokensGo_ne_nil (foldAscii s) [] w hmem, hstop⟩

/-- Closed instance of C8: the legacy token_set of "Hello, World!" contains
"hello". -/
theorem token_set_characterization_witness :
    String.toList "hello" ∈ Legacy.token_set (String.toList "Hello, World!") :=
  (token_set_characterization.1 (String.toList "Hello, World!")
    (String.toList "hello")).mpr ⟨by decide, by decide⟩

/-! ## C9: score bounds and the empty-set Jaccard convention -/

theorem jaccard_nonneg (a b : Finset Str) : 0 ≤ Websearch.jaccard a b := by
  rw [Websearch.jaccard]
  split
  · exact le_refl 0
  · dsimp only
    split
    · exact le_refl 0
    · positivity

theorem jaccard_le_one (a b : Finset Str) : Websearch.jaccard a b ≤ 1 := by
  rw [Websearch.jaccard]
  split
  · exact zero_le_one
  · dsimp only
    split
    · exact zero_le_one
    · apply div_le_one_of_le₀
      · exact_mod_cast Finset.card_le_card Finset.inter_subset_union
      · positivity

theorem score_result_bounds (track_title : Str) (artists : List Str)
    (url title : Str) :
    -(8 : ℚ) / 100 ≤ Websearch.score_result track_title artists url title ∧
      Websearch.score_result track_title artists url title ≤ 115 / 100 := by
  have h0 := jaccard_nonneg
    (Websearch.token_set track_title ∪ (clean_artists artists).toFinset)
    (Websearch.token_set title)
  have h1 := jaccard_le_one
    (Websearch.token_set track_title ∪ (clean_artists artists).toFinset)
    (Websearch.token_set title)
  rw [Websearch.score_result]
  split <;> split <;> constructor <;> linarith

/-- C9: every score computed by pick_best_web_result for a candidate lies in
the closed interval [-0.08, 1.15] (the Jaccard base lies in [0,1], the
subset bonus adds at most 0.15 once, the playlist penalty subtracts at most
0.08 once), and the Jaccard similarity of two empty token sets is 0. -/
theorem web_score_bounds :
    (∀ (results : List (Str × Str)) (track_title : Str) (artists : List Str),
      ∀ x ∈ Websearch.scored_results results track_title artists,
        -(8 : ℚ) / 100 ≤ x.1 ∧ x.1 ≤ 115 / 100) ∧
    Websearch.jaccard ∅ ∅ = 0 := by
  constructor
  · intro results track_title artists x hx
    rcases List.mem_map.mp hx with ⟨p, hp, rfl⟩
    exact score_result_bounds track_title artists p.1 p.2
  · rw [Websearch.jaccard]
    rw [if_pos (Or.inl rfl)]

/-- Closed instance of C9: the score of the sole candidate of a one-element
result list lies inside the bounds. -/
theorem web_score_bounds_witness :
    -(8 : ℚ) / 100 ≤ (Websearch.score_result (String.toList "t") []
        (String.toList "u") (String.toList "t"), String.toList "u",
        String.toList "t").1 ∧
      (Websearch.score_result (String.toList "t") [] (String.toList "u")
        (String.toList "t"), String.toList "u",
        String.toList "t").1 ≤ 115 / 100 :=
  web_score_bounds.1 [(String.toList "u", String.toList "t")]
    (String.toList "t") []
    (Websearch.score_result (String.toList "t") [] (String.toList "u")
      (String.toList "t"), String.toList "u", String.toList "t")
    (List.mem_map.mpr ⟨(String.toList "u", String.toList "t"),
      List.mem_singleton.mpr rfl, rfl⟩)

/-! ## C10: the single-candidate shortcut of the legacy picker -/

/-- C10: the legacy pick_from_web_results short-circuits a single candidate
to parsing its URL, consuming no input and showing no table; the refactored
websearch picker has no such shortcut — on a one-element list its result
depends on the selection it reads (entering 1 picks the candidate, entering
0 skips), and the two implementations disagree on single-element input. -/
theorem single_candidate_shortcut :
    (∀ (r : Str × Str) (stdin : List Str),
      Legacy.pick_from_web_results [r] stdin =
        (parse_youtube_video_id r.1, stdin, false)) ∧
    (Websearch.pick_from_web_results
        [(String.toList "https://music.youtube.com/watch?v=abc123def45",
          String.toList "T")] [String.toList "1"] ≠
      Websearch.pick_from_web_results
        [(String.toList "https://music.youtube.com/watch?v=abc123def45",
          String.toList "T")] [String.toList "0"]) ∧
    (Legacy.pick_from_web_results
        [(String.toList "https://music.youtube.com/watch?v=abc123def45",
          String.toList "T")] [String.toList "0"] ≠
      Websearch.pick_from_web_results
        [(String.toList "https://music.youtube.com/watch?v=abc123def45",
          String.toList "T")] [String.toList "0"]) := by
  refine ⟨fun r stdin => rfl, by decide, by decide⟩

/-- Closed instance of C10: one candidate, untouched stdin, no prompt. -/
theorem single_candidate_shortcut_witness :
    Legacy.pick_from_web_results
        [(String.toList "https://youtu.be/zzz", String.toList "S")]
        [String.toList "3"] =
      (parse_youtube_video_id (String.toList "https://youtu.be/zzz"),
        [String.toList "3"], false) :=
  single_candidate_shortcut.1
    (String.toList "https://youtu.be/zzz", String.toList "S")
    [String.toList "3"]

end Synclify
